import Mathlib

/-!
# bcache-test: a block-device consistency checker

A shallow embedding of `bcache-test.c`: the region I/O loops `Pread` and `Pwrite`,
the offset and length selection at the head of every iteration, the per-page
verification loop with its checksum ledger, and the two fatal exits `err` and `bad`.

Conventions of the embedding.

* Memory (a device, a buffer) is a map from a byte index to the byte stored there.
* `unsigned long` values are naturals reduced modulo `2 ^ 64` after every operation
  that can leave the range; `int` counters are integers reduced to 32 bits.
* A `double` is the rational number it denotes; every arithmetic operation on doubles
  is followed by `fl`, rounding to the nearest double (ties to even).
* The library routines `MD4` and `RC4` are parameters: `MD4` is any function from a page
  of bytes to a 16-byte digest, and the `RC4` key state is the position reached in a
  keystream `ks`. The keystream of the program, RC4 keyed with `bcache_magic`, is
  `keystream`.
* The values drawn from `random()`, `drand48()` and `normal()` and the byte counts
  returned by `pread` and `pwrite` are inputs of the model.
-/

namespace BcacheTest

/-! ## Data model -/

/-- Byte-addressed memory: a device or a buffer. -/
abbrev Mem := Nat → Nat

/-- The 16-byte arrays `csum`, `oldcsum` and `c`. -/
abbrev Digest := Fin 16 → Nat

/-- Modulus of `unsigned long` arithmetic. -/
def ULONG : Nat := 2 ^ 64

/-- Largest value of an `int`. -/
def INT_MAX : Int := 2147483647

/-- Reduction of an integer to the range of a 32-bit `int` (two's complement). -/
def wrapInt (x : Int) : Int := (x + 2147483648) % 4294967296 - 2147483648

/-- The record `struct pagestuff`. -/
structure pagestuff where
  csum : Digest
  oldcsum : Digest
  readcount : Int
  writecount : Int

/-- An entry of the array as `calloc` returns it. -/
def pagestuff.fresh : pagestuff :=
  { csum := fun _ => 0, oldcsum := fun _ => 0, readcount := 0, writecount := 0 }

/-- The global `unsigned char zero[4096]`. -/
def zero : Mem := fun _ => 0

/-- The 4096 bytes of `buf + j`. -/
def page (buf : Mem) (j : Nat) : List Nat :=
  (List.range 4096).map (fun i => buf (j + i))

/-- The libc `memcmp` on two byte strings of the same length: the sign of the first
difference, `0` when there is none. -/
def memcmp : List Nat → List Nat → Int
  | a :: as, b :: bs => if a < b then -1 else if b < a then 1 else memcmp as bs
  | _, _ => 0

/-- The call `memcmp(x, y, 16)` on two digests. -/
def memcmp16 (x y : Digest) : Int := memcmp (List.ofFn x) (List.ofFn y)

/-- The call `RC4(&writedata, len, indata, outdata + j)`: the next `len` keystream bytes,
XORed with `indata`, land at `outdata + j`, and the key state advances by `len`. -/
def RC4 (ks : Nat → Nat) (writedata len : Nat) (indata outdata : Mem) (j : Nat) :
    Nat × Mem :=
  (writedata + len,
   fun i => if j ≤ i ∧ i < j + len then
              (indata (i - j)) ^^^ (ks (writedata + (i - j)))
            else outdata i)

/-- The bytes that the next `RC4` call of 4096 bytes produces from the all-zero source. -/
def transformed (ks : Nat → Nat) (writedata : Nat) : List Nat :=
  (List.range 4096).map (fun i => ks (writedata + i))

/-- The variables of `main` that the page loop reads and writes. -/
structure State where
  pages : Nat → pagestuff
  buf1 : Mem
  buf2 : Mem
  writedata : Nat
  c : Digest

/-- Where control stands after the page loop or one pass of its body: it fell through
(`ok`), jumped to `bad` with the loop variable `j`, or is still looping when the fuel ran
out (`spin`). -/
inductive Outcome where
  | ok (s : State)
  | bad (s : State) (j : Nat)
  | spin

/-- Index of `p = &pages[(offset + j) / 4096]`. -/
def pageIndex (offset j : Nat) : Nat := ((offset + j) % ULONG) / 4096

/-- An `int` value whose increment does not overflow. -/
def canIncrement (x : Int) : Prop := -2147483648 ≤ x ∧ x < INT_MAX

/-- The statement `writing ? p->writecount++ : p->readcount++`. -/
def count (writing : Bool) (p : pagestuff) : pagestuff :=
  if writing then { p with writecount := wrapInt (p.writecount + 1) }
  else { p with readcount := wrapInt (p.readcount + 1) }

/-- One pass through the body of `for (j = 0; j < nbytes; j += 4096)`. -/
def pageBody (MD4 : List Nat → Digest) (ks : Nat → Nat) (writing csum : Bool)
    (offset j : Nat) (s : State) : Outcome :=
  let idx := pageIndex offset j
  let s1 : State :=
    if writing then
      let r := RC4 ks s.writedata 4096 zero s.buf1 j
      { s with buf1 := r.2, writedata := r.1 }
    else s
  if csum then
    let s2 : State := { s1 with c := MD4 (page s1.buf1 j) }
    let p := s2.pages idx
    if writing || (p.readcount == 0 && p.writecount == 0) then
      let p1 : pagestuff := { p with oldcsum := p.csum, csum := s2.c }
      Outcome.ok { s2 with pages := Function.update s2.pages idx (count writing p1) }
    else if memcmp16 p.csum s2.c ≠ 0 then
      Outcome.bad s2 j
    else
      Outcome.ok { s2 with pages := Function.update s2.pages idx (count writing p) }
  else if !writing && memcmp (page s1.buf1 j) (page s1.buf2 j) ≠ 0 then
    Outcome.bad s1 j
  else
    Outcome.ok { s1 with pages := Function.update s1.pages idx (count writing (s1.pages idx)) }

/-- The loop `for (j = 0; j < nbytes; j += 4096)`, entered with the current `j`. -/
def pageLoop (MD4 : List Nat → Digest) (ks : Nat → Nat) (writing csum : Bool)
    (offset nbytes : Nat) : Nat → Nat → State → Outcome
  | fuel, j, s =>
    if j < nbytes then
      match fuel with
      | 0 => Outcome.spin
      | fuel + 1 =>
        match pageBody MD4 ks writing csum offset j s with
        | Outcome.ok s1 => pageLoop MD4 ks writing csum offset nbytes fuel (j + 4096) s1
        | o => o
    else Outcome.ok s

/-! ### Region transfers -/

/-- The effect on `buf` of a call `pread(fd, buf, count, off)` that returns `r`:
the `r` bytes of the device that start at `off` land at the start of `buf`. -/
def pread (dev buf : Mem) (r : Int) (off : Nat) : Mem :=
  fun i => if (i : Int) < r then dev (off + i) else buf i

/-- The effect on the device of a call `pwrite(fd, buf, count, off)` that returns `r`:
the first `r` bytes of `buf` land on the device at `off`. -/
def pwrite (dev buf : Mem) (r : Int) (off : Nat) : Mem :=
  fun a => if off ≤ a ∧ ((a - off : Nat) : Int) < r then buf (a - off) else dev a

/-- How a region transfer ends. `mem` is the memory written (the buffer for `Pread`, the
device for `Pwrite`), `calls` the values returned by the calls made, in order.
`done` is the normal end of the `while` loop with the final byte count, `err` the jump
to `err`, `spin` a loop still running when the fuel ran out. -/
inductive Transfer where
  | done (mem : Mem) (count : Int) (calls : List Int)
  | err (mem : Mem) (calls : List Int)
  | spin (mem : Mem) (calls : List Int)

/-- The `while` loop of `Pread(fd, buf, size, offset)`. The call number `k` asked for
`n` bytes returns `ret k n`. -/
def PreadLoop (dev : Mem) (ret : Nat → Int → Int) (size : Int) (offset : Nat) :
    Nat → Int → Mem → List Int → Transfer
  | fuel, nread, buf, calls =>
    if nread < size then
      match fuel with
      | 0 => Transfer.spin buf calls
      | fuel + 1 =>
        let r := ret calls.length (size - nread)
        if r ≤ 0 then Transfer.err buf (calls ++ [r])
        else
          PreadLoop dev ret size offset fuel (nread + r)
            (pread dev buf r ((offset + nread.toNat) % ULONG)) (calls ++ [r])
    else Transfer.done buf nread calls

/-- The statement `Pread(fd, buf, size, offset)`. -/
def Pread (fuel : Nat) (dev : Mem) (ret : Nat → Int → Int) (buf : Mem) (size : Int)
    (offset : Nat) : Transfer :=
  PreadLoop dev ret size offset fuel 0 buf []

/-- The `while` loop of `Pwrite(fd, buf, size, offset)`. -/
def PwriteLoop (buf : Mem) (ret : Nat → Int → Int) (size : Int) (offset : Nat) :
    Nat → Int → Mem → List Int → Transfer
  | fuel, nwrite, dev, calls =>
    if nwrite < size then
      match fuel with
      | 0 => Transfer.spin dev calls
      | fuel + 1 =>
        let r := ret calls.length (size - nwrite)
        if r < 0 then Transfer.err dev (calls ++ [r])
        else
          PwriteLoop buf ret size offset fuel (nwrite + r)
            (pwrite dev buf r ((offset + nwrite.toNat) % ULONG)) (calls ++ [r])
    else Transfer.done dev nwrite calls

/-- The statement `Pwrite(fd, buf, size, offset)`. -/
def Pwrite (fuel : Nat) (dev : Mem) (ret : Nat → Int → Int) (buf : Mem) (size : Int)
    (offset : Nat) : Transfer :=
  PwriteLoop buf ret size offset fuel 0 dev []

/-- The byte count `_read` (or `_write`) reached after the first `k` calls of a transfer
of `size` bytes, call number `i` asked for `n` bytes returning `ret i n`. -/
def transferred (ret : Nat → Int → Int) (size : Int) : Nat → Int
  | 0 => 0
  | k + 1 => transferred ret size k + ret k (size - transferred ret size k)

/-- The values returned by the first `k` calls of a transfer, in order. -/
def returned (ret : Nat → Int → Int) (size : Int) (k : Nat) : List Int :=
  (List.range k).map (fun i => ret i (size - transferred ret size i))

/-- The buffer of `Pread` after its first `k` calls. -/
def readInto (dev : Mem) (ret : Nat → Int → Int) (size : Int) (offset : Nat) (buf : Mem) :
    Nat → Mem
  | 0 => buf
  | k + 1 =>
    pread dev (readInto dev ret size offset buf k) (ret k (size - transferred ret size k))
      ((offset + (transferred ret size k).toNat) % ULONG)

/-- The device of `Pwrite` after its first `k` calls. -/
def writtenTo (buf : Mem) (ret : Nat → Int → Int) (size : Int) (offset : Nat) (dev : Mem) :
    Nat → Mem
  | 0 => dev
  | k + 1 =>
    pwrite (writtenTo buf ret size offset dev k) buf (ret k (size - transferred ret size k))
      ((offset + (transferred ret size k).toNat) % ULONG)

/-- What the exit `bad:` prints. -/
structure BadReport where
  loop : Nat
  sector : Nat
  readcount : Int
  writecount : Int
  matchesPrevious : Bool

/-- The exit `bad:`, reached with the loop counter `i`, the region `offset`, the page
displacement `j` and the page `p` under examination. -/
def bad (i offset j : Nat) (s : State) : BadReport :=
  let p := s.pages (pageIndex offset j)
  { loop := i
    sector := ((offset + j) % ULONG) >>> 9
    readcount := p.readcount
    writecount := p.writecount
    matchesPrevious := memcmp16 p.oldcsum s.c == 0 }

/-! ### One iteration of the main loop -/

/-- The command-line options that steer an iteration. -/
structure Options where
  walk : Bool
  randsize : Bool
  csum : Bool
  destructive : Bool

/-- The values drawn during one iteration: `x48 / 2 ^ 48` from `drand48()`, `normal` from
`normal()`, `random` from `random()`. -/
structure Draw where
  x48 : Nat
  normal : ℚ
  random : Nat

/-- The two devices and the variables of `main` that live across iterations. -/
structure Run where
  dev1 : Mem
  dev2 : Mem
  offset : Nat
  done : Nat
  st : State

/-- How an iteration ends: control returns to the head of the loop, or leaves through
`err` or through `bad`, or a transfer is still retrying when the fuel ran out. -/
inductive Step where
  | next (r : Run)
  | err (r : Run)
  | bad (r : Run) (report : BadReport)
  | spin

/-! ### Double precision -/

/-- The integer nearest to `q`, the even one of the two when `q` lies half way. -/
def roundEven (q : ℚ) : Int :=
  let f := ⌊q⌋
  let r := q - f
  if r < 1 / 2 then f else if 1 / 2 < r then f + 1 else if f % 2 = 0 then f else f + 1

/-- The double nearest to the rational `q`: 53 significant bits, the unit in the last
place never below `2 ^ (-1074)`, ties to even. Overflow to infinity is not modelled; no
value of the program comes near it. -/
def fl (q : ℚ) : ℚ :=
  if q = 0 then 0 else
    let e := max (Int.log 2 |q|) (-1022)
    let u : ℚ := 2 ^ (e - 52)
    roundEven (q / u) * u

/-- The integer part of a double, as the conversion of a double to an integer type
takes it: the fraction is discarded. -/
def truncate (d : ℚ) : Int := if 0 ≤ d then ⌊d⌋ else ⌈d⌉

/-- Conversion of a double to `unsigned long`. C defines it when the integer part is
representable; outside that range the value is reduced modulo `2 ^ 64`, which is what the
x86-64 conversion yields for the magnitudes that occur here. -/
def toULong (d : ℚ) : Nat := (truncate d % (ULONG : Int)).toNat

/-- Conversion of a double to `int`. -/
def toInt (d : ℚ) : Int := wrapInt (truncate d)

/-! ### The head of an iteration -/

/-- The statements `size = getblocks(fd1); if (!csum) size = MIN(size, getblocks(fd2));
size = size / 8 - 16;` on the two `long` values returned by `getblocks`. -/
def rangeSize (csum : Bool) (blocks1 blocks2 : Int) : Nat :=
  let s1 := (blocks1 % (ULONG : Int)).toNat
  let b2 := (blocks2 % (ULONG : Int)).toNat
  let s2 := if csum then s1 else (if s1 < b2 then s1 else b2)
  ((((s2 / 8 : Nat) : Int) - 16) % (ULONG : Int)).toNat

/-- The number of entries asked of `calloc(size + 16, sizeof(*pages))`. -/
def allocated (size : Nat) : Nat := (size + 16) % ULONG

/-- The statements `nbytes = randsize ? drand48() * 16 + 1 : 1; nbytes <<= 12;`.
`drand48()` returns `x48 / 2 ^ 48` for a 48-bit integer `x48`. -/
def nextNbytes (randsize : Bool) (x48 : Nat) : Int :=
  let n := toInt (if randsize then fl (fl ((x48 : ℚ) / 2 ^ 48 * 16) + 1) else 1)
  wrapInt (n * 4096)

/-- The value of `offset` after `offset >>= 12; offset += walk ? normal() * 20 : random();
offset %= size;`, a page number. `normal` and `random` are the values returned by the two
functions. The sum is a sum of doubles, converted back to `unsigned long`. -/
def nextPage (walk : Bool) (size offset : Nat) (normal : ℚ) (random : Nat) : Nat :=
  toULong (fl (fl ((offset >>> 12 : Nat) : ℚ)
      + (if walk then fl (normal * 20) else fl (random : ℚ)))) % size

/-- The value of `offset` after the closing `offset <<= 12;`. -/
def nextOffset (walk : Bool) (size offset : Nat) (normal : ℚ) (random : Nat) : Nat :=
  (nextPage walk size offset normal random <<< 12) % ULONG

/-- The walk-mode update as the specification words it: the previous page plus the
Gaussian sample times 20 rounded to the nearest integer, brought into `[0, range)` by
`((x mod range) + range) mod range`. -/
def specWalk (prev range : Nat) (g : ℚ) : Int :=
  (((prev : Int) + round (g * 20)) % (range : Int) + range) % (range : Int)

/-- The body of `for (i = 0;; i++)`, the progress report and the kernel log apart.
`ret1` and `ret2` give the values returned by the transfer calls on the first and on the
second device; `fuel` bounds the number of calls made by one transfer. -/
def iteration (MD4 : List Nat → Digest) (ks : Nat → Nat) (o : Options)
    (size fuel i : Nat) (d : Draw) (ret1 ret2 : Nat → Int → Int) (r : Run) : Step :=
  let writing := o.destructive && (i % 2 == 1)
  let nbytes := nextNbytes o.randsize d.x48
  let offset := nextOffset o.walk size r.offset d.normal d.random
  let r0 : Run := { r with offset := offset, done := (r.done + (nbytes / 512).toNat) % ULONG }
  match (if !writing then Pread fuel r0.dev1 ret1 r0.st.buf1 nbytes offset
         else Transfer.done r0.st.buf1 0 []) with
  | Transfer.err b1 _ => Step.err { r0 with st := { r0.st with buf1 := b1 } }
  | Transfer.spin _ _ => Step.spin
  | Transfer.done b1 _ _ =>
    match (if !writing && !o.csum then Pread fuel r0.dev2 ret2 r0.st.buf2 nbytes offset
           else Transfer.done r0.st.buf2 0 []) with
    | Transfer.err b2 _ => Step.err { r0 with st := { r0.st with buf1 := b1, buf2 := b2 } }
    | Transfer.spin _ _ => Step.spin
    | Transfer.done b2 _ _ =>
      match pageLoop MD4 ks writing o.csum offset nbytes.toNat fuel 0
          { r0.st with buf1 := b1, buf2 := b2 } with
      | Outcome.bad s j => Step.bad { r0 with st := s } (bad i offset j s)
      | Outcome.spin => Step.spin
      | Outcome.ok s =>
        match (if writing then Pwrite fuel r0.dev1 ret1 s.buf1 nbytes offset
               else Transfer.done r0.dev1 0 []) with
        | Transfer.err d1 _ => Step.err { r0 with dev1 := d1, st := s }
        | Transfer.spin _ _ => Step.spin
        | Transfer.done d1 _ _ =>
          match (if writing && !o.csum then Pwrite fuel r0.dev2 ret2 s.buf2 nbytes offset
                 else Transfer.done r0.dev2 0 []) with
          | Transfer.err d2 _ => Step.err { r0 with dev1 := d1, dev2 := d2, st := s }
          | Transfer.spin _ _ => Step.spin
          | Transfer.done d2 _ _ => Step.next { r0 with dev1 := d1, dev2 := d2, st := s }

/-! ## Sample instances

The theorems below hold for every digest function and every keystream. The instances
here serve to evaluate the definitions on concrete inputs: the RC4 keystream of the
program, a digest function, a device, and the state of `main` on entry to its loop. -/

/-- A digest function for concrete runs: the first 16 bytes of the page. -/
def sampleDigest (l : List Nat) : Digest := fun i => l.getD i 0

/-- The key `bcache_magic` of the source. -/
def bcache_magic : List Nat :=
  [0xc6, 0x85, 0x73, 0xf6, 0x4e, 0x1a, 0x45, 0xca,
   0x82, 0x65, 0xf5, 0x7f, 0x48, 0xba, 0x6d, 0x81]

/-- Exchange of the entries `i` and `j` of an RC4 permutation. -/
def swap (S : List Nat) (i j : Nat) : List Nat :=
  (S.set i (S.getD j 0)).set j (S.getD i 0)

/-- The key schedule of RC4, from step `i` on. -/
def ksa (key : List Nat) : Nat → Nat → Nat → List Nat → List Nat
  | 0, _, _, S => S
  | fuel + 1, i, j, S =>
    let j1 := (j + S.getD i 0 + key.getD (i % key.length) 0) % 256
    ksa key fuel (i + 1) j1 (swap S i j1)

/-- The library call `RC4_set_key(&key, len, data)`: the permutation it leaves in the
key state. -/
def RC4_set_key (key : List Nat) : List Nat := ksa key 256 0 0 (List.range 256)

/-- The output generator of RC4: the byte produced `n` steps after the state `(i, j, S)`. -/
def prga : Nat → Nat → Nat → List Nat → Nat
  | n, i, j, S =>
    let i1 := (i + 1) % 256
    let j1 := (j + S.getD i1 0) % 256
    let S1 := swap S i1 j1
    match n with
    | 0 => S1.getD ((S1.getD i1 0 + S1.getD j1 0) % 256) 0
    | n + 1 => prga n i1 j1 S1

/-- The keystream of the program: byte `n` of the RC4 stream keyed with `bcache_magic`
by `RC4_set_key(&writedata, 16, bcache_magic)`. -/
def keystream (n : Nat) : Nat := prga n 0 0 (RC4_set_key bcache_magic)

/-- A device for concrete runs: the byte at index `i` is `i % 251`. -/
def sampleDevice : Mem := fun i => i % 251

/-- The state of `main` on entry to the first iteration: the ledger as `calloc` left it,
both buffers holding zero bytes, the key stream at its start. -/
def sampleState : State :=
  { pages := fun _ => pagestuff.fresh, buf1 := zero, buf2 := zero, writedata := 0,
    c := fun _ => 0 }

/-- The options of a mirror-mode run with destructive writes: `write`, no `csum`. -/
def sampleMirror : Options :=
  { walk := false, randsize := false, csum := false, destructive := true }

/-- The options of a checksum-mode run with destructive writes and Gaussian steps:
`walk`, `csum`, `write`. -/
def sampleWalk : Options :=
  { walk := true, randsize := false, csum := true, destructive := true }

/-- A run on entry to the main loop: two devices that hold zero bytes. -/
def sampleRun : Run :=
  { dev1 := zero, dev2 := zero, offset := 0, done := 0, st := sampleState }

/-! ## Comparison lemmas -/

set_option maxRecDepth 100000 in
theorem keystream_zero : keystream 0 = 238 := by decide


theorem memcmp_eq_zero_iff (a b : List Nat) (h : a.length = b.length) :
    memcmp a b = 0 ↔ a = b := by
  induction a generalizing b with
  | nil =>
    cases b with
    | nil => simp [memcmp]
    | cons y ys => simp at h
  | cons x xs ih =>
    cases b with
    | nil => simp at h
    | cons y ys =>
      have hl : xs.length = ys.length := by simpa using h
      unfold memcmp
      by_cases h1 : x < y
      · simp [h1]; omega
      · by_cases h2 : y < x
        · simp [h1, h2]; omega
        · have hxy : x = y := by omega
          simp [h1, hxy, ih ys hl]

theorem memcmp16_eq_zero_iff (x y : Digest) : memcmp16 x y = 0 ↔ x = y := by
  unfold memcmp16
  rw [memcmp_eq_zero_iff _ _ (by simp)]
  exact List.ofFn_injective.eq_iff

theorem page_length (buf : Mem) (j : Nat) : (page buf j).length = 4096 := by
  simp [page]

theorem page_getD (buf : Mem) (j i : Nat) (h : i < 4096) :
    (page buf j).getD i 0 = buf (j + i) := by
  simp [page, List.getD_eq_getElem?_getD, List.getElem?_range h]

theorem transformed_getD (ks : Nat → Nat) (writedata i : Nat) (h : i < 4096) :
    (transformed ks writedata).getD i 0 = ks (writedata + i) := by
  simp [transformed, List.getD_eq_getElem?_getD, List.getElem?_range h]

theorem page_eq_iff (a b : Mem) (j : Nat) :
    page a j = page b j ↔ ∀ i, i < 4096 → a (j + i) = b (j + i) := by
  unfold page
  constructor
  · intro h i hi
    have := List.map_inj_left.mp h i (List.mem_range.mpr hi)
    exact this
  · intro h
    exact List.map_inj_left.mpr (fun i hi => h i (List.mem_range.mp hi))

theorem wrapInt_succ (x : Int) (h : canIncrement x) : wrapInt (x + 1) = x + 1 := by
  unfold wrapInt
  unfold canIncrement INT_MAX at h
  omega

theorem canIncrement_zero : canIncrement 0 := by
  unfold canIncrement INT_MAX
  omega

/-! ## Equations of the page body in checksum mode -/

theorem page_RC4 (ks : Nat → Nat) (writedata : Nat) (b : Mem) (j : Nat) :
    page (RC4 ks writedata 4096 zero b j).2 j = transformed ks writedata := by
  simp only [page, transformed, RC4, zero]
  apply List.map_congr_left
  intro a ha
  have ha1 : a < 4096 := List.mem_range.mp ha
  simp [ha1]

theorem pageBody_first_read (MD4 : List Nat → Digest) (ks : Nat → Nat)
    (offset j : Nat) (s : State)
    (hr : (s.pages (pageIndex offset j)).readcount = 0)
    (hw : (s.pages (pageIndex offset j)).writecount = 0) :
    pageBody MD4 ks false true offset j s
      = Outcome.ok { s with
          c := MD4 (page s.buf1 j)
          pages := Function.update s.pages (pageIndex offset j)
            (count false { s.pages (pageIndex offset j) with
              oldcsum := (s.pages (pageIndex offset j)).csum
              csum := MD4 (page s.buf1 j) }) } := by
  simp [pageBody, hr, hw]

theorem pageBody_write (MD4 : List Nat → Digest) (ks : Nat → Nat)
    (offset j : Nat) (s : State) :
    pageBody MD4 ks true true offset j s
      = Outcome.ok { s with
          buf1 := (RC4 ks s.writedata 4096 zero s.buf1 j).2
          writedata := s.writedata + 4096
          c := MD4 (page (RC4 ks s.writedata 4096 zero s.buf1 j).2 j)
          pages := Function.update s.pages (pageIndex offset j)
            (count true { s.pages (pageIndex offset j) with
              oldcsum := (s.pages (pageIndex offset j)).csum
              csum := MD4 (page (RC4 ks s.writedata 4096 zero s.buf1 j).2 j) }) } := by
  simp [pageBody, RC4]

theorem pageBody_reread (MD4 : List Nat → Digest) (ks : Nat → Nat)
    (offset j : Nat) (s : State)
    (hseen : ¬ ((s.pages (pageIndex offset j)).readcount = 0 ∧
                (s.pages (pageIndex offset j)).writecount = 0)) :
    pageBody MD4 ks false true offset j s
      = if memcmp16 (s.pages (pageIndex offset j)).csum (MD4 (page s.buf1 j)) ≠ 0 then
          Outcome.bad { s with c := MD4 (page s.buf1 j) } j
        else
          Outcome.ok { s with
            c := MD4 (page s.buf1 j)
            pages := Function.update s.pages (pageIndex offset j)
              (count false (s.pages (pageIndex offset j))) } := by
  have hcond : ((s.pages (pageIndex offset j)).readcount == 0 &&
      (s.pages (pageIndex offset j)).writecount == 0) = false := by
    simpa using hseen
  simp [pageBody, hcond]

/-! ## The checksum ledger -/

/-- C1. In checksum mode, a write, or a read of a page whose two counters are zero, falls
through without reaching `bad`; afterwards `oldcsum` holds the former `csum`, `csum` is the
MD4 digest of the page of `buf1` that was hashed (the bytes read for a read, the keystream
bytes just generated for a write), and exactly one counter went up by one: `writecount`
for a write (an `int` below `INT_MAX`), `readcount` for a read. -/
theorem baseline_or_write_updates (MD4 : List Nat → Digest) (ks : Nat → Nat)
    (writing : Bool) (offset j : Nat) (s : State)
    (h : writing = true ∨ ((s.pages (pageIndex offset j)).readcount = 0 ∧
          (s.pages (pageIndex offset j)).writecount = 0)) :
    ∃ s1, pageBody MD4 ks writing true offset j s = Outcome.ok s1 ∧
      (s1.pages (pageIndex offset j)).oldcsum = (s.pages (pageIndex offset j)).csum ∧
      (s1.pages (pageIndex offset j)).csum = MD4 (page s1.buf1 j) ∧
      (writing = false → s1.buf1 = s.buf1) ∧
      (writing = true → page s1.buf1 j = transformed ks s.writedata) ∧
      (writing = true → canIncrement (s.pages (pageIndex offset j)).writecount →
        (s1.pages (pageIndex offset j)).writecount
            = (s.pages (pageIndex offset j)).writecount + 1 ∧
        (s1.pages (pageIndex offset j)).readcount
            = (s.pages (pageIndex offset j)).readcount) ∧
      (writing = false →
        (s1.pages (pageIndex offset j)).readcount
            = (s.pages (pageIndex offset j)).readcount + 1 ∧
        (s1.pages (pageIndex offset j)).writecount
            = (s.pages (pageIndex offset j)).writecount) := by
  cases writing with
  | true =>
    rw [pageBody_write]
    refine ⟨_, rfl, ?_, ?_, ?_, ?_, ?_, ?_⟩
    · simp [count]
    · simp [count]
    · intro hf
      cases hf
    · intro _
      exact page_RC4 ks s.writedata s.buf1 j
    · intro _ hinc
      simp [count, wrapInt_succ _ hinc]
    · intro hf
      cases hf
  | false =>
    obtain ⟨hr, hwz⟩ : (s.pages (pageIndex offset j)).readcount = 0 ∧
        (s.pages (pageIndex offset j)).writecount = 0 := by simpa using h
    rw [pageBody_first_read MD4 ks offset j s hr hwz]
    refine ⟨_, rfl, ?_⟩
    simp [count, hr, hwz, wrapInt]

/-- Witness for C1: the first read of page 5, all of whose bytes are zero. -/
theorem baseline_or_write_updates_witness :
    ∃ s1, pageBody sampleDigest keystream false true 20480 0 sampleState
        = Outcome.ok s1 ∧
      (s1.pages 5).csum = sampleDigest (page zero 0) ∧
      (s1.pages 5).readcount = 1 := by
  obtain ⟨s1, h1, _, h3, h4, _, _, h7⟩ :=
    baseline_or_write_updates sampleDigest keystream false 20480 0 sampleState
      (Or.inr ⟨rfl, rfl⟩)
  have hb := h4 rfl
  have hidx : pageIndex 20480 0 = 5 := by decide
  rw [hidx] at h3 h7
  refine ⟨s1, h1, ?_, ?_⟩
  · rw [h3, hb]; rfl
  · rw [(h7 rfl).1]; rfl

/-- C2. In checksum mode, a read of a page that was read or written before reaches `bad`
exactly when the MD4 digest of the bytes read differs from `csum`. When it does not, the
two checksums are unchanged and `readcount` goes up by one (for a `readcount` below
`INT_MAX`); when it does, the ledger is left as it was and `bad` reports a match with the
previous checksum exactly when the digest equals `oldcsum`. -/
theorem read_of_seen_page (MD4 : List Nat → Digest) (ks : Nat → Nat)
    (offset j : Nat) (s : State)
    (hseen : 0 < (s.pages (pageIndex offset j)).readcount
                + (s.pages (pageIndex offset j)).writecount) :
    ((∃ s1 j1, pageBody MD4 ks false true offset j s = Outcome.bad s1 j1)
        ↔ MD4 (page s.buf1 j) ≠ (s.pages (pageIndex offset j)).csum) ∧
    (MD4 (page s.buf1 j) = (s.pages (pageIndex offset j)).csum →
      canIncrement (s.pages (pageIndex offset j)).readcount →
      ∃ s1, pageBody MD4 ks false true offset j s = Outcome.ok s1 ∧
        (s1.pages (pageIndex offset j)).csum = (s.pages (pageIndex offset j)).csum ∧
        (s1.pages (pageIndex offset j)).oldcsum = (s.pages (pageIndex offset j)).oldcsum ∧
        (s1.pages (pageIndex offset j)).readcount
            = (s.pages (pageIndex offset j)).readcount + 1 ∧
        (s1.pages (pageIndex offset j)).writecount
            = (s.pages (pageIndex offset j)).writecount) ∧
    (MD4 (page s.buf1 j) ≠ (s.pages (pageIndex offset j)).csum →
      ∃ s1, pageBody MD4 ks false true offset j s = Outcome.bad s1 j ∧
        s1.pages = s.pages ∧
        ∀ i, ((bad i offset j s1).matchesPrevious = true
                ↔ MD4 (page s.buf1 j) = (s.pages (pageIndex offset j)).oldcsum)) := by
  have hnot : ¬ ((s.pages (pageIndex offset j)).readcount = 0 ∧
      (s.pages (pageIndex offset j)).writecount = 0) := by
    rintro ⟨h1, h2⟩
    rw [h1, h2] at hseen
    exact absurd hseen (by decide)
  have hbody := pageBody_reread MD4 ks offset j s hnot
  rw [hbody]
  by_cases hd : MD4 (page s.buf1 j) = (s.pages (pageIndex offset j)).csum
  · have hm : memcmp16 (s.pages (pageIndex offset j)).csum (MD4 (page s.buf1 j)) = 0 :=
      (memcmp16_eq_zero_iff _ _).mpr hd.symm
    rw [if_neg (not_not.mpr hm)]
    refine ⟨?_, ?_, fun h => absurd hd h⟩
    · constructor
      · rintro ⟨s1, j1, h⟩
        cases h
      · intro h
        exact absurd hd h
    · intro _ hinc
      have hc := wrapInt_succ _ hinc
      exact ⟨_, rfl, by simp [count, hc]⟩
  · have hm : memcmp16 (s.pages (pageIndex offset j)).csum (MD4 (page s.buf1 j)) ≠ 0 :=
      fun h0 => hd ((memcmp16_eq_zero_iff _ _).mp h0).symm
    rw [if_pos hm]
    refine ⟨?_, fun h => absurd h hd, ?_⟩
    · exact ⟨fun _ => hd, fun _ => ⟨_, _, rfl⟩⟩
    · intro _
      refine ⟨_, rfl, rfl, fun i => ?_⟩
      simp only [bad, beq_iff_eq, memcmp16_eq_zero_iff]
      exact ⟨fun h => h.symm, fun h => h.symm⟩

/-- Witness for C2: page 5 has been read once with digest `sampleDigest (page zero 0)`,
and is read again with the same bytes. -/
theorem read_of_seen_page_witness :
    ∃ s1, pageBody sampleDigest keystream false true 20480 0
        { sampleState with pages := fun _ =>
            { pagestuff.fresh with csum := sampleDigest (page zero 0), readcount := 1 } }
        = Outcome.ok s1 ∧ (s1.pages 5).readcount = 2 := by
  obtain ⟨_, h2, _⟩ := read_of_seen_page sampleDigest keystream 20480 0
    { sampleState with pages := fun _ =>
        { pagestuff.fresh with csum := sampleDigest (page zero 0), readcount := 1 } }
    (by show (0 : Int) < 1 + 0; decide)
  obtain ⟨s1, h1, _, _, h5, _⟩ :=
    h2 (by simp only [sampleState])
      (by show canIncrement 1; unfold canIncrement INT_MAX; decide)
  have hidx : pageIndex 20480 0 = 5 := by decide
  rw [hidx] at h5
  exact ⟨s1, h1, by rw [h5]; rfl⟩

/-- C3. Stale-read signature. In checksum mode, on a page with both counters zero: a read
observing `C`, then a write of the transformed content `T`, then a read observing `C`
again. When the digests of `C` and `T` differ, the first two passes fall through and the
third reaches `bad` with the observed digest equal to `oldcsum`, so that `bad` reports a
match with the previous checksum. -/
theorem stale_read_signature (MD4 : List Nat → Digest) (ks : Nat → Nat)
    (offset j : Nat) (s : State)
    (hfresh : (s.pages (pageIndex offset j)).readcount = 0 ∧
              (s.pages (pageIndex offset j)).writecount = 0)
    (hne : MD4 (page s.buf1 j) ≠ MD4 (transformed ks s.writedata)) :
    ∃ s1 s2, pageBody MD4 ks false true offset j s = Outcome.ok s1 ∧
      pageBody MD4 ks true true offset j s1 = Outcome.ok s2 ∧
      (s2.pages (pageIndex offset j)).csum = MD4 (transformed ks s.writedata) ∧
      ∀ b : Mem, page b j = page s.buf1 j →
        ∃ s3, pageBody MD4 ks false true offset j { s2 with buf1 := b } = Outcome.bad s3 j ∧
          s3.c = MD4 (page s.buf1 j) ∧
          s3.c = (s3.pages (pageIndex offset j)).oldcsum ∧
          ∀ i, (bad i offset j s3).matchesPrevious = true := by
  obtain ⟨hr, hw⟩ := hfresh
  rw [pageBody_first_read MD4 ks offset j s hr hw]
  refine ⟨_, _, rfl, pageBody_write MD4 ks offset j _, ?_, ?_⟩
  · simp [count, page_RC4]
  · intro b hb
    have hm : memcmp16 (MD4 (transformed ks s.writedata)) (MD4 (page s.buf1 j)) ≠ 0 :=
      fun h0 => hne ((memcmp16_eq_zero_iff _ _).mp h0).symm
    rw [pageBody_reread]
    · simp only [Function.update_same, count, page_RC4, hb]
      simp only [if_true, Bool.false_eq_true, if_false, if_pos hm]
      refine ⟨_, rfl, rfl, ?_, ?_⟩
      · simp
      · intro i
        simp [bad, memcmp16_eq_zero_iff]
    · simp [count, hw, wrapInt]

/-- Witness for C3, the scenario of a range of 1024 pages: page 5 is read with all bytes
zero, written with the transformed content, and read again with all bytes zero. -/
theorem stale_read_signature_witness :
    ∃ s1 s2, pageBody sampleDigest keystream false true 20480 0 sampleState
        = Outcome.ok s1 ∧
      pageBody sampleDigest keystream true true 20480 0 s1 = Outcome.ok s2 ∧
      ∃ s3, pageBody sampleDigest keystream false true 20480 0
          { s2 with buf1 := zero } = Outcome.bad s3 0 ∧
        (bad 2 20480 0 s3).matchesPrevious = true := by
  have hne : sampleDigest (page sampleState.buf1 0)
      ≠ sampleDigest (transformed keystream sampleState.writedata) := by
    intro h
    have h0 := congrFun h 0
    simp only [sampleDigest, Fin.val_zero, page_getD _ _ 0 (by decide),
      transformed_getD _ _ 0 (by decide)] at h0
    have hk : keystream (sampleState.writedata + 0) = 238 := keystream_zero
    rw [hk] at h0
    exact absurd h0 (by decide)
  obtain ⟨s1, s2, h1, h2, _, h4⟩ :=
    stale_read_signature sampleDigest keystream 20480 0 sampleState ⟨rfl, rfl⟩ hne
  obtain ⟨s3, h5, _, _, h8⟩ := h4 zero rfl
  exact ⟨s1, s2, h1, h2, s3, h5, h8 2⟩

/-! ## Region transfers -/

theorem PreadLoop_completes (dev : Mem) (ret : Nat → Int → Int) (size : Int) (offset : Nat)
    (hret : ∀ k n, ret k n ≤ n) (hpos : ∀ k n, 0 < n → 0 < ret k n) (fuel : Nat) :
    ∀ (nread : Int) (buf : Mem) (calls : List Int),
      nread ≤ size → (size - nread).toNat ≤ fuel → calls.sum = nread →
      ∃ b cs, PreadLoop dev ret size offset fuel nread buf calls = Transfer.done b size cs ∧
          cs.sum = size := by
  induction fuel with
  | zero =>
    intro nread buf calls hle hfuel hsum
    have hn : nread = size := by omega
    exact ⟨buf, calls, by rw [PreadLoop, if_neg (by omega), hn], by rw [hsum, hn]⟩
  | succ f ih =>
    intro nread buf calls hle hfuel hsum
    rw [PreadLoop]
    by_cases hlt : nread < size
    · rw [if_pos hlt]
      have hp := hpos calls.length (size - nread) (by omega)
      have hb := hret calls.length (size - nread)
      simp only [if_neg (not_le.mpr hp)]
      apply ih
      · omega
      · omega
      · simp [hsum]
    · have hn : nread = size := by omega
      exact ⟨buf, calls, by rw [if_neg hlt, hn], by rw [hsum, hn]⟩

theorem PwriteLoop_completes (buf : Mem) (ret : Nat → Int → Int) (size : Int) (offset : Nat)
    (hret : ∀ k n, ret k n ≤ n) (hpos : ∀ k n, 0 < n → 0 < ret k n) (fuel : Nat) :
    ∀ (nwrite : Int) (dev : Mem) (calls : List Int),
      nwrite ≤ size → (size - nwrite).toNat ≤ fuel → calls.sum = nwrite →
      ∃ d cs, PwriteLoop buf ret size offset fuel nwrite dev calls = Transfer.done d size cs ∧
          cs.sum = size := by
  induction fuel with
  | zero =>
    intro nwrite dev calls hle hfuel hsum
    have hn : nwrite = size := by omega
    exact ⟨dev, calls, by rw [PwriteLoop, if_neg (by omega), hn], by rw [hsum, hn]⟩
  | succ f ih =>
    intro nwrite dev calls hle hfuel hsum
    rw [PwriteLoop]
    by_cases hlt : nwrite < size
    · rw [if_pos hlt]
      have hp := hpos calls.length (size - nwrite) (by omega)
      have hb := hret calls.length (size - nwrite)
      simp only [if_neg (not_lt.mpr (le_of_lt hp))]
      apply ih
      · omega
      · omega
      · simp [hsum]
    · have hn : nwrite = size := by omega
      exact ⟨dev, calls, by rw [if_neg hlt, hn], by rw [hsum, hn]⟩

theorem pwrite_zero (dev buf : Mem) (off : Nat) : pwrite dev buf 0 off = dev := by
  funext a
  simp only [pwrite]
  rw [if_neg]
  rintro ⟨_, h⟩
  omega

/-- In `Pwrite`, a call that returns zero is followed by the same call again: the byte
count, the device and the arguments of the next call are those of the call before. -/
theorem PwriteLoop_retries_zero (buf : Mem) (ret : Nat → Int → Int) (size : Int)
    (offset fuel : Nat) (nwrite : Int) (dev : Mem) (calls : List Int)
    (hlt : nwrite < size) (hz : ret calls.length (size - nwrite) = 0) :
    PwriteLoop buf ret size offset (fuel + 1) nwrite dev calls
      = PwriteLoop buf ret size offset fuel nwrite dev (calls ++ [0]) := by
  rw [PwriteLoop, if_pos hlt]
  simp only [hz, lt_irrefl, if_false, add_zero, pwrite_zero]

theorem returned_length (ret : Nat → Int → Int) (size : Int) (k : Nat) :
    (returned ret size k).length = k := by
  simp [returned]

theorem returned_succ (ret : Nat → Int → Int) (size : Int) (k : Nat) :
    returned ret size (k + 1)
      = returned ret size k ++ [ret k (size - transferred ret size k)] := by
  simp [returned, List.range_succ]

theorem transferred_le (ret : Nat → Int → Int) (size : Int) (k0 : Nat)
    (hstep : ∀ k, k < k0 → 0 ≤ ret k (size - transferred ret size k)) :
    ∀ j k, k + j = k0 → transferred ret size k ≤ transferred ret size k0 := by
  intro j
  induction j with
  | zero =>
    intro k hk
    rw [Nat.add_zero] at hk
    rw [hk]
  | succ j ih =>
    intro k hk
    have h1 := ih (k + 1) (by omega)
    have h2 := hstep k (by omega)
    have h3 : transferred ret size (k + 1)
        = transferred ret size k + ret k (size - transferred ret size k) := rfl
    omega

/-- The `Pread` loop after `k` calls that all returned a positive count, the byte count
still below `size`. -/
theorem PreadLoop_advance (dev : Mem) (ret : Nat → Int → Int) (size : Int) (offset : Nat)
    (buf : Mem) (k0 : Nat)
    (hpos : ∀ k, k < k0 → 0 < ret k (size - transferred ret size k))
    (hlt : transferred ret size k0 < size) :
    ∀ k, k ≤ k0 → ∀ f, PreadLoop dev ret size offset (f + k) 0 buf []
      = PreadLoop dev ret size offset f (transferred ret size k)
          (readInto dev ret size offset buf k) (returned ret size k) := by
  intro k
  induction k with
  | zero =>
    intro _ f
    rfl
  | succ k ih =>
    intro hk f
    have hle := transferred_le ret size k0 (fun i hi => le_of_lt (hpos i hi))
      (k0 - k) k (by omega)
    have hp := hpos k (by omega)
    rw [show f + (k + 1) = (f + 1) + k by omega, ih (by omega) (f + 1), PreadLoop,
      if_pos (by omega)]
    simp only [returned_length, if_neg (not_le.mpr hp)]
    rw [← returned_succ]
    rfl

/-- In `Pread`, the first call that returns zero or less, made before `size` bytes were
transferred, ends the operation in `err`: no further call is made, the calls made are
exactly those up to and including it. -/
theorem Pread_stops_at_first_failure (dev : Mem) (ret : Nat → Int → Int) (size : Int)
    (offset : Nat) (buf : Mem) (k0 fuel : Nat)
    (hpos : ∀ k, k < k0 → 0 < ret k (size - transferred ret size k))
    (hlt : transferred ret size k0 < size)
    (hbad : ret k0 (size - transferred ret size k0) ≤ 0) :
    Pread (fuel + 1 + k0) dev ret buf size offset
      = Transfer.err (readInto dev ret size offset buf k0) (returned ret size (k0 + 1)) := by
  rw [Pread, PreadLoop_advance dev ret size offset buf k0 hpos hlt k0 (le_refl _) (fuel + 1),
    PreadLoop, if_pos hlt]
  simp only [returned_length, if_pos hbad]
  rw [← returned_succ]

/-- The `Pwrite` loop after `k` calls that all returned zero or more, the byte count
still below `size`. -/
theorem PwriteLoop_advance (buf : Mem) (ret : Nat → Int → Int) (size : Int) (offset : Nat)
    (dev : Mem) (k0 : Nat)
    (hpos : ∀ k, k < k0 → 0 ≤ ret k (size - transferred ret size k))
    (hlt : transferred ret size k0 < size) :
    ∀ k, k ≤ k0 → ∀ f, PwriteLoop buf ret size offset (f + k) 0 dev []
      = PwriteLoop buf ret size offset f (transferred ret size k)
          (writtenTo buf ret size offset dev k) (returned ret size k) := by
  intro k
  induction k with
  | zero =>
    intro _ f
    rfl
  | succ k ih =>
    intro hk f
    have hle := transferred_le ret size k0 hpos (k0 - k) k (by omega)
    have hp := hpos k (by omega)
    rw [show f + (k + 1) = (f + 1) + k by omega, ih (by omega) (f + 1), PwriteLoop,
      if_pos (by omega)]
    simp only [returned_length, if_neg (not_lt.mpr hp)]
    rw [← returned_succ]
    rfl

/-- In `Pwrite`, the first call that returns less than zero, made before `size` bytes were
transferred, ends the operation in `err`: no further call is made. -/
theorem Pwrite_stops_at_first_error (buf : Mem) (ret : Nat → Int → Int) (size : Int)
    (offset : Nat) (dev : Mem) (k0 fuel : Nat)
    (hpos : ∀ k, k < k0 → 0 ≤ ret k (size - transferred ret size k))
    (hlt : transferred ret size k0 < size)
    (hbad : ret k0 (size - transferred ret size k0) < 0) :
    Pwrite (fuel + 1 + k0) dev ret buf size offset
      = Transfer.err (writtenTo buf ret size offset dev k0) (returned ret size (k0 + 1)) := by
  rw [Pwrite, PwriteLoop_advance buf ret size offset dev k0 hpos hlt k0 (le_refl _) (fuel + 1),
    PwriteLoop, if_pos hlt]
  simp only [returned_length, if_pos hbad]
  rw [← returned_succ]

/-- A `Pwrite` whose every call returns zero never ends: whatever the number of calls
allowed, the loop is still running, the device untouched. -/
theorem PwriteLoop_spins_on_zero (buf : Mem) (size : Int) (offset : Nat) (hsize : 0 < size)
    (dev : Mem) (fuel : Nat) :
    ∀ calls, PwriteLoop buf (fun _ _ => 0) size offset fuel 0 dev calls
      = Transfer.spin dev (calls ++ List.replicate fuel 0) := by
  induction fuel with
  | zero =>
    intro calls
    rw [PwriteLoop, if_pos hsize]
    simp
  | succ f ih =>
    intro calls
    rw [PwriteLoop_retries_zero buf (fun _ _ => 0) size offset f 0 dev calls hsize rfl,
      ih (calls ++ [0]), List.replicate_succ, List.append_assoc]
    rfl

/-- C9 at a failing input: a transfer of one page (4096 bytes) at offset 0 whose first
call returns zero. `Pread` ends in `err` after that call. `Pwrite` does not: the same call
is made again, and when the second call transfers the page the operation ends normally
with the calls `[0, 4096]`; when every call returns zero the loop is still retrying after
any number of calls. -/
theorem pwrite_zero_is_retried :
    (∃ b, Pread 4096 sampleDevice (fun k n => if k = 0 then 0 else n) zero 4096 0
        = Transfer.err b [0]) ∧
    (∃ d, Pwrite 4096 sampleDevice (fun k n => if k = 0 then 0 else n) zero 4096 0
        = Transfer.done d 4096 [0, 4096]) ∧
    (∀ fuel, Pwrite fuel sampleDevice (fun _ _ => 0) zero 4096 0
        = Transfer.spin sampleDevice (List.replicate fuel 0)) := by
  refine ⟨⟨zero, ?_⟩, ⟨pwrite sampleDevice zero 4096 0, ?_⟩, ?_⟩
  · rw [Pread, PreadLoop]
    simp
  · have h1 := PwriteLoop_retries_zero zero (fun k n => if k = 0 then 0 else n) 4096 0 4095 0
      sampleDevice [] (by decide) rfl
    rw [Pwrite, h1, PwriteLoop]
    simp [PwriteLoop, ULONG]
  · intro fuel
    rw [Pwrite, PwriteLoop_spins_on_zero zero 4096 0 (by decide) sampleDevice fuel []]
    rfl

/-- When the first `pread` transfers the whole length, `Pread` leaves the region of the
device in the buffer. -/
theorem Pread_single_call (dev buf : Mem) (ret : Nat → Int → Int) (size : Int)
    (offset fuel : Nat) (hsize : 0 < size) (hoff : offset < ULONG)
    (hwhole : ret 0 size = size) :
    ∃ b, Pread (fuel + 1) dev ret buf size offset = Transfer.done b size [size] ∧
      ∀ i : Nat, (i : Int) < size → b i = dev (offset + i) := by
  refine ⟨pread dev buf size offset, ?_, ?_⟩
  · rw [Pread, PreadLoop, if_pos hsize]
    have hr : ¬ ret ([] : List Int).length (size - 0) ≤ 0 := by
      simp only [List.length_nil, sub_zero, hwhole]
      omega
    simp only [if_neg hr]
    simp only [List.length_nil, sub_zero, hwhole, zero_add, Int.toNat_zero, add_zero,
      Nat.mod_eq_of_lt hoff, List.nil_append]
    rw [PreadLoop.eq_def]
    simp only [lt_irrefl, if_false]
  · intro i hi
    simp [pread, hi]

/-- C8 at a failing input. The device holds `i % 251` at byte `i`; the page at offset 0 is
read into a zeroed buffer; the first `pread` returns 1 and the second the 4095 bytes still
asked for. `Pread` ends normally after 4096 bytes, but the second call stored its bytes at
the start of the buffer again: byte 0 of the buffer is byte 1 of the device, and the last
byte of the buffer was never written. -/
theorem short_read_misplaces_bytes :
    ∃ b, Pread 4096 sampleDevice (fun k n => if k = 0 then 1 else n) zero 4096 0
        = Transfer.done b 4096 [1, 4095] ∧
      b 0 = 1 ∧ sampleDevice 0 = 0 ∧ b 4095 = 0 ∧ sampleDevice 4095 = 79 := by
  refine ⟨pread sampleDevice (pread sampleDevice zero 1 0) 4095 1, ?_, ?_, ?_, ?_, ?_⟩
  · rw [Pread, PreadLoop]
    simp [PreadLoop, ULONG]
  · simp [pread, sampleDevice]
  · simp [sampleDevice]
  · simp [pread, zero]
  · simp [sampleDevice]

/-! ## Double precision -/

theorem roundEven_intCast (z : Int) : roundEven (z : ℚ) = z := by
  simp [roundEven]

theorem fl_exact (m x : Int) (hm : |m| < 2 ^ 53) (hx : -1074 ≤ x) :
    fl ((m : ℚ) * 2 ^ x) = (m : ℚ) * 2 ^ x := by
  by_cases h0 : m = 0
  · simp [h0, fl]
  have h2 : (0 : ℚ) < 2 := by norm_num
  have hq : (m : ℚ) * 2 ^ x ≠ 0 := by
    have : (2 : ℚ) ^ x ≠ 0 := (zpow_pos h2 x).ne'
    exact mul_ne_zero (by exact_mod_cast h0) this
  have habs : |(m : ℚ) * 2 ^ x| = (|m| : ℤ) * 2 ^ x := by
    rw [abs_mul, abs_of_pos (zpow_pos h2 x)]
    push_cast
    rfl
  have hlt : |(m : ℚ) * 2 ^ x| < 2 ^ (53 + x) := by
    rw [habs, zpow_add₀ (by norm_num : (2 : ℚ) ≠ 0)]
    have : ((|m| : ℤ) : ℚ) < 2 ^ (53 : ℤ) := by
      have h : ((|m| : ℤ) : ℚ) < ((2 ^ 53 : ℤ) : ℚ) := by exact_mod_cast hm
      norm_num at h ⊢
      exact h
    exact mul_lt_mul_of_pos_right this (zpow_pos h2 x)
  have hle := Int.zpow_log_le_self (R := ℚ) (b := 2) (by norm_num) (abs_pos.mpr hq)
  have he : Int.log 2 |(m : ℚ) * 2 ^ x| < 53 + x := by
    have := lt_of_le_of_lt hle hlt
    have h12 : (1 : ℚ) < 2 := by norm_num
    exact (zpow_lt_zpow_iff_right₀ h12).mp (by simpa using this)
  have hE : max (Int.log 2 |(m : ℚ) * 2 ^ x|) (-1022) - 52 ≤ x := by
    rcases max_cases (Int.log 2 |(m : ℚ) * 2 ^ x|) (-1022) with ⟨h, _⟩ | ⟨h, _⟩ <;>
      rw [h] <;> omega
  unfold fl
  rw [if_neg hq]
  simp only
  generalize max (Int.log 2 |(m : ℚ) * 2 ^ x|) (-1022) - 52 = t at hE
  obtain ⟨n, hn⟩ : ∃ n : ℕ, x = t + n := ⟨(x - t).toNat, by omega⟩
  have hdiv : (m : ℚ) * 2 ^ x / 2 ^ t = ((m * 2 ^ n : ℤ) : ℚ) := by
    rw [hn, zpow_add₀ (by norm_num : (2 : ℚ) ≠ 0), zpow_natCast]
    field_simp
    ring
  rw [hdiv, roundEven_intCast, hn, zpow_add₀ (by norm_num : (2 : ℚ) ≠ 0), zpow_natCast]
  push_cast
  ring

theorem fl_intCast (m : Int) (hm : |m| < 2 ^ 53) : fl (m : ℚ) = m := by
  have h := fl_exact m 0 hm (by decide)
  simpa using h

theorem fl_natCast (n : Nat) (hn : n < 2 ^ 53) : fl (n : ℚ) = n := by
  have h := fl_intCast (n : Int) (by rw [abs_of_nonneg (by positivity)]; exact_mod_cast hn)
  simpa using h

theorem truncate_intCast (z : Int) : truncate (z : ℚ) = z := by
  unfold truncate
  split <;> simp

theorem truncate_of_nonneg (d : ℚ) (h : 0 ≤ d) : truncate d = ⌊d⌋ := by
  simp [truncate, h]

theorem toULong_of_nonneg (d : ℚ) (h0 : 0 ≤ d) (h1 : d < 2 ^ 64) :
    toULong d = ⌊d⌋.toNat := by
  unfold toULong
  rw [truncate_of_nonneg d h0]
  have hf0 : 0 ≤ ⌊d⌋ := Int.floor_nonneg.mpr h0
  have hf1 : ⌊d⌋ < 2 ^ 64 := by
    have : (⌊d⌋ : ℚ) < ((2 ^ 64 : Int) : ℚ) := by
      push_cast
      exact lt_of_le_of_lt (Int.floor_le d) h1
    exact_mod_cast this
  have hU : (ULONG : Int) = 2 ^ 64 := by simp [ULONG]
  rw [hU, Int.emod_eq_of_lt hf0 hf1]

/-! ## Offset selection -/

/-- C6. For every range of at least one page, every previous offset, every value returned
by `normal()` (walk mode) and every value returned by `random()` (uniform mode), the page
number left by `offset %= size` satisfies `0 ≤ page < size`. A sum that is negative before
the conversion to `unsigned long` is covered: whatever the conversion yields is reduced
modulo `size`. -/
theorem offset_within_range (walk : Bool) (size offset : Nat) (normal : ℚ) (random : Nat)
    (hsize : 1 ≤ size) :
    0 ≤ nextPage walk size offset normal random ∧
      nextPage walk size offset normal random < size :=
  ⟨Nat.zero_le _, Nat.mod_lt _ hsize⟩

/-- Witness for C6: a walk step of `-20` pages from page 0 of a 1024-page range. -/
theorem offset_within_range_witness :
    0 ≤ nextPage true 1024 0 (-1) 0 ∧ nextPage true 1024 0 (-1) 0 < 1024 :=
  offset_within_range true 1024 0 (-1) 0 (by decide)

theorem specWalk_of_int (prev range : Nat) (g : ℚ) (k : Int) (hk : g * 20 = k)
    (hrange : 1 ≤ range) (hsum : 0 ≤ (prev : Int) + k) :
    specWalk prev range g = ((((prev : Int) + k).toNat % range : Nat) : Int) := by
  unfold specWalk
  rw [hk, round_intCast]
  have hr : (0 : Int) < range := by exact_mod_cast hrange
  have h1 := Int.emod_nonneg ((prev : Int) + k) hr.ne'
  have h2 := Int.emod_lt_of_pos ((prev : Int) + k) hr
  rw [Int.add_emod_self, Int.emod_emod_of_dvd _ (dvd_refl _)]
  have h3 : (((prev : Int) + k).toNat : Int) = (prev : Int) + k := Int.toNat_of_nonneg hsum
  rw [Int.natCast_mod, h3]

/-- C7, as the code has it. Let `s` be the double sum of the previous page and the product
`normal() * 20`. When `0 ≤ s < 2 ^ 64`, the next page is the integer part of `s` reduced
modulo the range: the sum is truncated, not rounded. When the product is an integer `k`
(below `2 ^ 52` in size) and the previous page plus `k` is not negative, this is the value
the specification gives. -/
theorem walk_truncates (size offset : Nat) (normal : ℚ) (random : Nat) :
    (0 ≤ fl (fl ((offset >>> 12 : Nat) : ℚ) + fl (normal * 20)) →
      fl (fl ((offset >>> 12 : Nat) : ℚ) + fl (normal * 20)) < 2 ^ 64 →
      nextPage true size offset normal random
        = ⌊fl (fl ((offset >>> 12 : Nat) : ℚ) + fl (normal * 20))⌋.toNat % size) ∧
    (∀ k : Int, normal * 20 = k → |k| < 2 ^ 52 → offset < ULONG → 1 ≤ size →
      0 ≤ ((offset >>> 12 : Nat) : Int) + k →
      (nextPage true size offset normal random : Int) = specWalk (offset >>> 12) size normal) := by
  constructor
  · intro h0 h1
    simp only [nextPage, if_true]
    rw [toULong_of_nonneg _ h0 h1]
  · intro k hk hkb hoff hsize hsum
    have hp : offset >>> 12 < 2 ^ 52 := by
      rw [Nat.shiftRight_eq_div_pow]
      unfold ULONG at hoff
      omega
    have hkb' := abs_lt.mp hkb
    have e1 : fl ((offset >>> 12 : Nat) : ℚ) = ((offset >>> 12 : Nat) : ℚ) :=
      fl_natCast _ (by omega)
    have e2 : fl (normal * 20) = (k : ℚ) := by
      rw [hk]
      exact fl_intCast k (by rw [abs_lt]; constructor <;> omega)
    have e3 : fl (((offset >>> 12 : Nat) : ℚ) + (k : ℚ))
        = ((((offset >>> 12 : Nat) : Int) + k : Int) : ℚ) := by
      have h := fl_intCast (((offset >>> 12 : Nat) : Int) + k)
        (by rw [abs_lt]; constructor <;> omega)
      rw [← h]
      push_cast
      rfl
    rw [specWalk_of_int _ _ _ k hk hsize hsum]
    simp only [nextPage, if_true, e1, e2, e3, toULong, truncate_intCast]
    have hU : (ULONG : Int) = 2 ^ 64 := by simp [ULONG]
    rw [hU, Int.emod_eq_of_lt hsum (by omega)]

/-- Witness for C7: from page 3 of a 10-page range, `normal()` returns `1 / 4`, the
product is `5` and the next page is `8`. -/
theorem walk_truncates_witness :
    (nextPage true 10 12288 (1 / 4) 0 : Int) = specWalk (12288 >>> 12) 10 (1 / 4) :=
  (walk_truncates 10 12288 (1 / 4) 0).2 5 (by norm_num) (by decide) (by decide)
    (by decide) (by decide)

/-- Counterexample to C7 as stated: from page 0 of a 10-page range, `normal()` returns
`5 / 128`. The product `25 / 32` rounds to 1, so that the specification gives page 1;
the conversion to `unsigned long` discards the fraction and the code stays on page 0. -/
theorem walk_does_not_round :
    nextPage true 10 0 (5 / 128) 0 = 0 ∧ specWalk 0 10 (5 / 128) = 1 := by
  have e1 : fl (((0 : Nat) >>> 12 : Nat) : ℚ) = 0 := by simp [fl]
  have e2 : fl ((5 / 128 : ℚ) * 20) = 25 / 32 := by
    have h := fl_exact 25 (-5) (by decide) (by decide)
    norm_num at h ⊢
    exact h
  have e3 : fl ((0 : ℚ) + 25 / 32) = 25 / 32 := by
    have h := fl_exact 25 (-5) (by decide) (by decide)
    norm_num at h ⊢
    exact h
  constructor
  · simp only [nextPage, if_true, e1, e2, e3]
    rw [toULong_of_nonneg _ (by norm_num) (by norm_num)]
    norm_num
  · unfold specWalk
    have hr : round ((5 / 128 : ℚ) * 20) = 1 := by
      rw [round_eq, Int.floor_eq_iff]
      norm_num
    rw [hr]
    decide

/-- The slip behind the open question on negative walk offsets: from page 0 of a 3-page
range a step of `-20` pages is converted to `2 ^ 64 - 20` and reduced to page 2, where
the mathematical modulo gives page 1. -/
theorem walk_negative_wraps :
    nextPage true 3 0 (-1) 0 = 2 ∧ specWalk 0 3 (-1) = 1 := by
  have e1 : fl (((0 : Nat) >>> 12 : Nat) : ℚ) = 0 := by simp [fl]
  have e2 : fl ((-1 : ℚ) * 20) = ((-20 : Int) : ℚ) := by
    have h := fl_intCast (-20) (by decide)
    norm_num at h ⊢
    exact h
  have e3 : fl ((0 : ℚ) + ((-20 : Int) : ℚ)) = ((-20 : Int) : ℚ) := by
    rw [zero_add]
    exact fl_intCast (-20) (by decide)
  constructor
  · simp only [nextPage, if_true, e1, e2, e3, toULong, truncate_intCast]
    decide
  · have hk : (-1 : ℚ) * 20 = ((-20 : Int) : ℚ) := by norm_num
    unfold specWalk
    rw [hk, round_intCast]
    decide

/-! ## Region length -/

theorem nextNbytes_fixed (x48 : Nat) : nextNbytes false x48 = 4096 := by
  have h : truncate (1 : ℚ) = 1 := by simpa using truncate_intCast 1
  simp only [nextNbytes, toInt, Bool.false_eq_true, if_false, h]
  decide

theorem nextNbytes_random (x48 : Nat) (h48 : x48 < 2 ^ 48) :
    nextNbytes true x48 = 4096 * (((x48 / 2 ^ 44 : Nat) : Int) + 1) := by
  have e1 : fl ((x48 : ℚ) / 2 ^ 48 * 16) = ((x48 : Int) : ℚ) * 2 ^ (-44 : Int) := by
    have h := fl_exact (x48 : Int) (-44)
      (by rw [abs_of_nonneg (by positivity)]; omega) (by decide)
    rw [← h]
    congr 1
    rw [zpow_neg]
    norm_num
    ring
  have e2 : fl (((x48 : Int) : ℚ) * 2 ^ (-44 : Int) + 1)
      = (((x48 : Int) + 2 ^ 44 : Int) : ℚ) * 2 ^ (-44 : Int) := by
    have h := fl_exact ((x48 : Int) + 2 ^ 44) (-44)
      (by rw [abs_of_nonneg (by positivity)]; omega) (by decide)
    rw [← h]
    congr 1
    rw [zpow_neg]
    norm_num
    ring
  have e3 : (((x48 : Int) + 2 ^ 44 : Int) : ℚ) * 2 ^ (-44 : Int)
      = (((x48 + 2 ^ 44 : Nat) : ℚ)) / ((2 ^ 44 : Nat) : ℚ) := by
    rw [zpow_neg]
    norm_num
    ring
  have e4 : truncate ((((x48 + 2 ^ 44 : Nat) : ℚ)) / ((2 ^ 44 : Nat) : ℚ))
      = (((x48 + 2 ^ 44) / 2 ^ 44 : Nat) : Int) := by
    rw [truncate_of_nonneg _ (by positivity), Rat.floor_natCast_div_natCast]
    norm_cast
  simp only [nextNbytes, toInt, if_true, e1, e2, e3, e4]
  have hq : (x48 + 2 ^ 44) / 2 ^ 44 = x48 / 2 ^ 44 + 1 := by omega
  have hb : x48 / 2 ^ 44 < 16 := by omega
  rw [hq]
  unfold wrapInt
  omega

/-- The region length is a whole number of pages, between 1 and 16. -/
theorem nextNbytes_pages (randsize : Bool) (x48 : Nat) (h48 : x48 < 2 ^ 48) :
    ∃ n : Nat, 1 ≤ n ∧ n ≤ 16 ∧ nextNbytes randsize x48 = 4096 * (n : Int) := by
  cases randsize with
  | false => exact ⟨1, by decide, by decide, by rw [nextNbytes_fixed]; rfl⟩
  | true =>
    refine ⟨x48 / 2 ^ 44 + 1, by omega, by omega, ?_⟩
    rw [nextNbytes_random x48 h48]
    push_cast
    rfl

/-! ## Ledger indexing -/

/-- On devices of at least 17 pages (136 sectors) the subtraction in `size / 8 - 16` does
not wrap: the range has at least one page and `size + 16` entries are allocated. -/
theorem rangeSize_of_large (csum : Bool) (blocks1 blocks2 : Int)
    (h1 : 136 ≤ blocks1) (h1' : blocks1 < 2 ^ 63) (h2 : 136 ≤ blocks2)
    (h2' : blocks2 < 2 ^ 63) :
    1 ≤ rangeSize csum blocks1 blocks2 ∧ rangeSize csum blocks1 blocks2 + 16 < ULONG := by
  have hU : (ULONG : Int) = 18446744073709551616 := by simp [ULONG]
  have hUn : ULONG = 18446744073709551616 := by simp [ULONG]
  simp only [rangeSize, hU, hUn]
  split <;> [skip; split] <;> omega

/-- Ledger indexing is in bounds whenever the range size is at least 1 and `size + 16`
does not wrap: the region has between 1 and 16 pages, and every index
`(offset + j) / 4096` with `j < nbytes` is below the number of entries allocated. -/
theorem ledger_index_in_bounds (walk randsize : Bool) (size offset x48 : Nat)
    (normal : ℚ) (random : Nat) (h48 : x48 < 2 ^ 48) (hsize : 1 ≤ size)
    (halloc : size + 16 < ULONG) :
    (∃ n : Nat, 1 ≤ n ∧ n ≤ 16 ∧ nextNbytes randsize x48 = 4096 * (n : Int)) ∧
    ∀ j : Nat, (j : Int) < nextNbytes randsize x48 →
      pageIndex (nextOffset walk size offset normal random) j < allocated size := by
  obtain ⟨n, hn1, hn16, hn⟩ := nextNbytes_pages randsize x48 h48
  refine ⟨⟨n, hn1, hn16, hn⟩, ?_⟩
  intro j hj
  rw [hn] at hj
  have hP : nextPage walk size offset normal random < size := Nat.mod_lt _ hsize
  have hUn : ULONG = 18446744073709551616 := by simp [ULONG]
  simp only [pageIndex, nextOffset, allocated, Nat.shiftLeft_eq, hUn] at *
  generalize nextPage walk size offset normal random = P at hP
  omega

/-! ## Mirror mode -/

theorem pageBody_mirror_read (MD4 : List Nat → Digest) (ks : Nat → Nat)
    (offset j : Nat) (s : State) :
    pageBody MD4 ks false false offset j s
      = if memcmp (page s.buf1 j) (page s.buf2 j) ≠ 0 then Outcome.bad s j
        else Outcome.ok { s with
          pages := Function.update s.pages (pageIndex offset j)
            (count false (s.pages (pageIndex offset j))) } := by
  simp [pageBody]

theorem memcmp_page_ne_zero_iff (a b : Mem) (j : Nat) :
    memcmp (page a j) (page b j) ≠ 0 ↔ ∃ i, i < 4096 ∧ a (j + i) ≠ b (j + i) := by
  rw [Ne, memcmp_eq_zero_iff _ _ (by rw [page_length, page_length]), page_eq_iff]
  push_neg
  rfl

theorem mirror_loop_equal (MD4 : List Nat → Digest) (ks : Nat → Nat) (offset : Nat)
    (m : Nat) :
    ∀ (fuel j : Nat) (s : State), m ≤ fuel →
      (∀ t, t < m → memcmp (page s.buf1 (j + 4096 * t)) (page s.buf2 (j + 4096 * t)) = 0) →
      (∀ t t1, t < m → t1 < m →
        pageIndex offset (j + 4096 * t) = pageIndex offset (j + 4096 * t1) → t = t1) →
      ∃ s1, pageLoop MD4 ks false false offset (j + 4096 * m) fuel j s = Outcome.ok s1 ∧
        s1.buf1 = s.buf1 ∧ s1.buf2 = s.buf2 ∧
        (∀ idx, (∀ t, t < m → pageIndex offset (j + 4096 * t) ≠ idx) →
          s1.pages idx = s.pages idx) ∧
        (∀ t, t < m → s1.pages (pageIndex offset (j + 4096 * t))
          = count false (s.pages (pageIndex offset (j + 4096 * t)))) := by
  induction m with
  | zero =>
    intro fuel j s _ _ _
    refine ⟨s, ?_, rfl, rfl, fun _ _ => rfl, fun t ht => absurd ht (Nat.not_lt_zero t)⟩
    rw [pageLoop.eq_def]
    simp
  | succ m ih =>
    intro fuel j s hfuel heq hinj
    obtain ⟨f, rfl⟩ : ∃ f, fuel = f + 1 := ⟨fuel - 1, by omega⟩
    have h0 : memcmp (page s.buf1 j) (page s.buf2 j) = 0 := by
      simpa using heq 0 (by omega)
    have hj : j + 4096 * (m + 1) = (j + 4096) + 4096 * m := by ring
    rw [pageLoop, if_pos (by omega), pageBody_mirror_read, if_neg (not_not.mpr h0)]
    simp only
    rw [hj]
    obtain ⟨s1, hs1, hb1, hb2, hother, hcount⟩ := ih f (j + 4096)
      { s with
        pages := Function.update s.pages (pageIndex offset j)
          (count false (s.pages (pageIndex offset j))) }
      (by omega)
      (fun t ht => by
        have := heq (t + 1) (by omega)
        rw [show j + 4096 * (t + 1) = j + 4096 + 4096 * t by ring] at this
        exact this)
      (fun t t1 ht ht1 h => by
        have := hinj (t + 1) (t1 + 1) (by omega) (by omega)
          (by rw [show j + 4096 * (t + 1) = j + 4096 + 4096 * t by ring,
                show j + 4096 * (t1 + 1) = j + 4096 + 4096 * t1 by ring]; exact h)
        omega)
    refine ⟨s1, hs1, hb1, hb2, ?_, ?_⟩
    · intro idx hidx
      rw [hother idx (fun t ht => by
        have := hidx (t + 1) (by omega)
        rw [show j + 4096 * (t + 1) = j + 4096 + 4096 * t by ring] at this
        exact this)]
      have h0 := hidx 0 (by omega)
      simp only [Nat.mul_zero, Nat.add_zero] at h0
      simp [Function.update_noteq (Ne.symm h0)]
    · intro t ht
      cases t with
      | zero =>
        simp only [Nat.mul_zero, Nat.add_zero]
        rw [hother (pageIndex offset j) (fun t1 ht1 h => by
          have := hinj (t1 + 1) 0 (by omega) (by omega)
            (by rw [show j + 4096 * (t1 + 1) = j + 4096 + 4096 * t1 by ring]; simpa using h)
          omega)]
        simp
      | succ t =>
        have hne : pageIndex offset (j + 4096 * (t + 1)) ≠ pageIndex offset j := by
          intro h
          have := hinj (t + 1) 0 (by omega) (by omega) (by simpa using h)
          omega
        have := hcount t (by omega)
        rw [show j + 4096 + 4096 * t = j + 4096 * (t + 1) by ring] at this
        rw [this]
        simp [Function.update_noteq hne]

theorem mirror_loop_mismatch (MD4 : List Nat → Digest) (ks : Nat → Nat) (offset : Nat)
    (t0 : Nat) :
    ∀ (m fuel j : Nat) (s : State), t0 < m → m ≤ fuel →
      (∀ t, t < t0 → memcmp (page s.buf1 (j + 4096 * t)) (page s.buf2 (j + 4096 * t)) = 0) →
      memcmp (page s.buf1 (j + 4096 * t0)) (page s.buf2 (j + 4096 * t0)) ≠ 0 →
      ∃ s1, pageLoop MD4 ks false false offset (j + 4096 * m) fuel j s
          = Outcome.bad s1 (j + 4096 * t0) ∧ s1.buf1 = s.buf1 ∧ s1.buf2 = s.buf2 := by
  induction t0 with
  | zero =>
    intro m fuel j s hm hfuel _ hne
    obtain ⟨f, rfl⟩ : ∃ f, fuel = f + 1 := ⟨fuel - 1, by omega⟩
    simp only [Nat.mul_zero, Nat.add_zero] at hne ⊢
    rw [pageLoop, if_pos (by omega), pageBody_mirror_read, if_pos hne]
    exact ⟨s, rfl, rfl, rfl⟩
  | succ t0 ih =>
    intro m fuel j s hm hfuel heq hne
    obtain ⟨f, rfl⟩ : ∃ f, fuel = f + 1 := ⟨fuel - 1, by omega⟩
    obtain ⟨m1, rfl⟩ : ∃ m1, m = m1 + 1 := ⟨m - 1, by omega⟩
    have h0 : memcmp (page s.buf1 j) (page s.buf2 j) = 0 := by
      simpa using heq 0 (by omega)
    rw [pageLoop, if_pos (by omega), pageBody_mirror_read, if_neg (not_not.mpr h0)]
    simp only
    rw [show j + 4096 * (m1 + 1) = j + 4096 + 4096 * m1 by ring,
      show j + 4096 * (t0 + 1) = j + 4096 + 4096 * t0 by ring] at *
    exact ih m1 f (j + 4096) _ (by omega) (by omega)
      (fun t ht => by
        have := heq (t + 1) (by omega)
        rw [show j + 4096 * (t + 1) = j + 4096 + 4096 * t by ring] at this
        exact this)
      hne

theorem pageIndex_injective (offset t t1 : Nat) (ht : t < 16) (ht1 : t1 < 16)
    (h : pageIndex offset (0 + 4096 * t) = pageIndex offset (0 + 4096 * t1)) : t = t1 := by
  have hUn : ULONG = 18446744073709551616 := by simp [ULONG]
  simp only [pageIndex, hUn] at h
  omega

/-- C4. A read iteration of mirror mode over a region of `n` pages, at most the 16 that
the buffers hold. The page loop reaches `bad` exactly when some page of the region differs
in some byte between `buf1` and `buf2`; it then stops at the lowest such page `k`, and the
sector printed is `(offset + 4096 * k) / 512`. When the buffers agree on the whole region
the loop ends normally and the `readcount` of every page of the region is one higher
(for read counts below `INT_MAX`). -/
theorem mirror_read_detects (MD4 : List Nat → Digest) (ks : Nat → Nat)
    (offset n fuel : Nat) (s : State) (hn : n ≤ fuel) (hn16 : n ≤ 16) :
    ((∃ s1 j, pageLoop MD4 ks false false offset (4096 * n) fuel 0 s = Outcome.bad s1 j) ↔
      ∃ k, k < n ∧ ∃ i, i < 4096 ∧ s.buf1 (4096 * k + i) ≠ s.buf2 (4096 * k + i)) ∧
    (∀ s1 j, pageLoop MD4 ks false false offset (4096 * n) fuel 0 s = Outcome.bad s1 j →
      ∃ k, k < n ∧ j = 4096 * k ∧
        (∃ i, i < 4096 ∧ s.buf1 (4096 * k + i) ≠ s.buf2 (4096 * k + i)) ∧
        (∀ k1, k1 < k → ∀ i, i < 4096 → s.buf1 (4096 * k1 + i) = s.buf2 (4096 * k1 + i)) ∧
        ∀ i, (bad i offset j s1).sector = ((offset + 4096 * k) % ULONG) / 512) ∧
    ((∀ k, k < n → ∀ i, i < 4096 → s.buf1 (4096 * k + i) = s.buf2 (4096 * k + i)) →
      (∀ k, k < n → canIncrement (s.pages (pageIndex offset (4096 * k))).readcount) →
      ∃ s1, pageLoop MD4 ks false false offset (4096 * n) fuel 0 s = Outcome.ok s1 ∧
        ∀ k, k < n → (s1.pages (pageIndex offset (4096 * k))).readcount
          = (s.pages (pageIndex offset (4096 * k))).readcount + 1) := by
  have hnb : 4096 * n = 0 + 4096 * n := by omega
  -- the two possible courses of the loop
  have hall : (∀ k, k < n →
        memcmp (page s.buf1 (0 + 4096 * k)) (page s.buf2 (0 + 4096 * k)) = 0) →
      ∃ s1, pageLoop MD4 ks false false offset (4096 * n) fuel 0 s = Outcome.ok s1 ∧
        ∀ k, k < n → s1.pages (pageIndex offset (0 + 4096 * k))
          = count false (s.pages (pageIndex offset (0 + 4096 * k))) := by
    intro heq
    obtain ⟨s1, h1, _, _, _, h5⟩ := mirror_loop_equal MD4 ks offset n fuel 0 s hn heq
      (fun t t1 ht ht1 h => pageIndex_injective offset t t1 (by omega) (by omega) h)
    exact ⟨s1, by rw [hnb]; exact h1, h5⟩
  have hsome : ∀ k, k < n →
      memcmp (page s.buf1 (0 + 4096 * k)) (page s.buf2 (0 + 4096 * k)) ≠ 0 →
      (∀ k1, k1 < k →
        memcmp (page s.buf1 (0 + 4096 * k1)) (page s.buf2 (0 + 4096 * k1)) = 0) →
      ∃ s1, pageLoop MD4 ks false false offset (4096 * n) fuel 0 s
        = Outcome.bad s1 (0 + 4096 * k) := by
    intro k hk hne heq
    obtain ⟨s1, h1, _, _⟩ := mirror_loop_mismatch MD4 ks offset k n fuel 0 s hk hn heq hne
    exact ⟨s1, by rw [hnb]; exact h1⟩
  have hdec : (∀ k, k < n →
        memcmp (page s.buf1 (0 + 4096 * k)) (page s.buf2 (0 + 4096 * k)) = 0) ∨
      ∃ k, k < n ∧ memcmp (page s.buf1 (0 + 4096 * k)) (page s.buf2 (0 + 4096 * k)) ≠ 0 ∧
        ∀ k1, k1 < k →
          memcmp (page s.buf1 (0 + 4096 * k1)) (page s.buf2 (0 + 4096 * k1)) = 0 := by
    by_cases hex : ∃ k, k < n ∧
        memcmp (page s.buf1 (0 + 4096 * k)) (page s.buf2 (0 + 4096 * k)) ≠ 0
    · right
      refine ⟨Nat.find hex, (Nat.find_spec hex).1, (Nat.find_spec hex).2, ?_⟩
      intro k1 hk1
      by_contra hne
      exact Nat.find_min hex hk1 ⟨lt_trans hk1 (Nat.find_spec hex).1, hne⟩
    · left
      intro k hk
      by_contra hne
      exact hex ⟨k, hk, hne⟩
  have hbytes : ∀ k, memcmp (page s.buf1 (0 + 4096 * k)) (page s.buf2 (0 + 4096 * k)) = 0 ↔
      ∀ i, i < 4096 → s.buf1 (4096 * k + i) = s.buf2 (4096 * k + i) := by
    intro k
    rw [Nat.zero_add, memcmp_eq_zero_iff _ _ (by rw [page_length, page_length]), page_eq_iff]
  refine ⟨?_, ?_, ?_⟩
  · constructor
    · rintro ⟨s1, j, hbad⟩
      rcases hdec with heq | ⟨k, hk, hne, _⟩
      · obtain ⟨s2, hok, _⟩ := hall heq
        rw [hok] at hbad
        cases hbad
      · refine ⟨k, hk, ?_⟩
        have := (not_congr (hbytes k)).mp hne
        push_neg at this
        exact this
    · rintro ⟨k, hk, i, hi, hne⟩
      rcases hdec with heq | ⟨k0, hk0, hne0, hmin⟩
      · exact absurd ((hbytes k).mp (heq k hk) i hi) hne
      · obtain ⟨s1, h1⟩ := hsome k0 hk0 hne0 hmin
        exact ⟨s1, _, h1⟩
  · intro s1 j hbad
    rcases hdec with heq | ⟨k, hk, hne, hmin⟩
    · obtain ⟨s2, hok, _⟩ := hall heq
      rw [hok] at hbad
      cases hbad
    · obtain ⟨s2, h2⟩ := hsome k hk hne hmin
      rw [h2] at hbad
      have hj : j = 0 + 4096 * k := by
        injection hbad with _ h
        exact h.symm
      have hd := (not_congr (hbytes k)).mp hne
      push_neg at hd
      refine ⟨k, hk, by omega, hd, fun k1 hk1 => (hbytes k1).mp (hmin k1 hk1), ?_⟩
      intro i
      simp only [bad, hj, Nat.zero_add, Nat.shiftRight_eq_div_pow]
  · intro heq hinc
    obtain ⟨s1, hok, hcount⟩ := hall (fun k hk => (hbytes k).mpr (heq k hk))
    refine ⟨s1, hok, fun k hk => ?_⟩
    have h := hcount k hk
    rw [Nat.zero_add] at h
    rw [h]
    simp [count, wrapInt_succ _ (hinc k hk)]

/-- Witness for C4: a one-page region at page 5 on which both buffers hold zero bytes. -/
theorem mirror_read_detects_witness :
    ∃ s1, pageLoop sampleDigest keystream false false 20480 (4096 * 1) 16 0 sampleState
        = Outcome.ok s1 ∧
      ∀ k, k < 1 → (s1.pages (pageIndex 20480 (4096 * k))).readcount
        = (sampleState.pages (pageIndex 20480 (4096 * k))).readcount + 1 :=
  (mirror_read_detects sampleDigest keystream 20480 1 16 sampleState
      (by decide) (by decide)).2.2
    (fun _ _ _ _ => rfl) (fun _ _ => canIncrement_zero)

/-! ## Mirrored writes -/

theorem nextPage_uniform (size offset : Nat) (normal : ℚ) (random : Nat)
    (hsum : (offset >>> 12) + random < 2 ^ 53) :
    nextPage false size offset normal random = ((offset >>> 12) + random) % size := by
  have e1 : fl ((offset >>> 12 : Nat) : ℚ) = ((offset >>> 12 : Nat) : ℚ) :=
    fl_natCast _ (by omega)
  have e2 : fl (random : ℚ) = (random : ℚ) := fl_natCast _ (by omega)
  have e3 : fl (((offset >>> 12 : Nat) : ℚ) + (random : ℚ))
      = (((offset >>> 12) + random : Nat) : ℚ) := by
    rw [← Nat.cast_add]
    exact fl_natCast _ hsum
  simp only [nextPage, Bool.false_eq_true, if_false, e1, e2, e3]
  rw [toULong_of_nonneg _ (by positivity)
    (by have : (((offset >>> 12) + random : Nat) : ℚ) < ((2 ^ 64 : Nat) : ℚ) := by
          exact_mod_cast (by omega : (offset >>> 12) + random < 2 ^ 64)
        simpa using this)]
  rw [Int.floor_natCast, Int.toNat_natCast]

theorem nextOffset_lt (walk : Bool) (size offset : Nat) (normal : ℚ) (random : Nat) :
    nextOffset walk size offset normal random < ULONG :=
  Nat.mod_lt _ (by simp [ULONG])

theorem Pwrite_single_call (dev buf : Mem) (ret : Nat → Int → Int) (size : Int)
    (offset fuel : Nat) (hsize : 0 < size) (hoff : offset < ULONG)
    (hwhole : ret 0 size = size) :
    Pwrite (fuel + 1) dev ret buf size offset
      = Transfer.done (pwrite dev buf size offset) size [size] := by
  rw [Pwrite, PwriteLoop, if_pos hsize]
  have hr : ¬ ret ([] : List Int).length (size - 0) < 0 := by
    simp only [List.length_nil, sub_zero, hwhole]
    omega
  simp only [if_neg hr]
  simp only [List.length_nil, sub_zero, hwhole, zero_add, Int.toNat_zero, add_zero,
    Nat.mod_eq_of_lt hoff, List.nil_append]
  rw [PwriteLoop.eq_def]
  simp only [lt_irrefl, if_false]

theorem Pread_single_call_eq (dev buf : Mem) (ret : Nat → Int → Int) (size : Int)
    (offset fuel : Nat) (hsize : 0 < size) (hoff : offset < ULONG)
    (hwhole : ret 0 size = size) :
    Pread (fuel + 1) dev ret buf size offset
      = Transfer.done (pread dev buf size offset) size [size] := by
  rw [Pread, PreadLoop, if_pos hsize]
  have hr : ¬ ret ([] : List Int).length (size - 0) ≤ 0 := by
    simp only [List.length_nil, sub_zero, hwhole]
    omega
  simp only [if_neg hr]
  simp only [List.length_nil, sub_zero, hwhole, zero_add, Int.toNat_zero, add_zero,
    Nat.mod_eq_of_lt hoff, List.nil_append]
  rw [PreadLoop.eq_def]
  simp only [lt_irrefl, if_false]


/-- A write iteration of mirror mode over one page, both `pwrite` calls transferring the
whole page: the first device receives the page of `buf1` that `RC4` just filled, the second
device receives the page of `buf2`, which the iteration never wrote. -/
theorem mirror_write_iteration (MD4 : List Nat → Digest) (ks : Nat → Nat) (o : Options)
    (size fuel i : Nat) (d : Draw) (ret1 ret2 : Nat → Int → Int) (r : Run)
    (hcsum : o.csum = false) (hdes : o.destructive = true) (hrand : o.randsize = false)
    (hi : i % 2 = 1) (h1 : ret1 0 4096 = 4096) (h2 : ret2 0 4096 = 4096) :
    ∃ r1, iteration MD4 ks o size (fuel + 1) i d ret1 ret2 r = Step.next r1 ∧
      r1.dev1 = pwrite r.dev1 (RC4 ks r.st.writedata 4096 zero r.st.buf1 0).2 4096
        (nextOffset o.walk size r.offset d.normal d.random) ∧
      r1.dev2 = pwrite r.dev2 r.st.buf2 4096
        (nextOffset o.walk size r.offset d.normal d.random) ∧
      r1.st.buf2 = r.st.buf2 ∧
      r1.offset = nextOffset o.walk size r.offset d.normal d.random := by
  have hoff := nextOffset_lt o.walk size r.offset d.normal d.random
  have hloop : ∀ s : State, pageLoop MD4 ks true false
      (nextOffset o.walk size r.offset d.normal d.random) 4096 (fuel + 1) 0 s
      = Outcome.ok { s with
          buf1 := (RC4 ks s.writedata 4096 zero s.buf1 0).2
          writedata := s.writedata + 4096
          pages := Function.update s.pages
            (pageIndex (nextOffset o.walk size r.offset d.normal d.random) 0)
            (count true (s.pages
              (pageIndex (nextOffset o.walk size r.offset d.normal d.random) 0))) } := by
    intro s
    rw [pageLoop, if_pos (by decide)]
    simp only [pageBody, RC4, if_true, Bool.false_eq_true, if_false, Bool.not_true,
      Bool.false_and]
    rw [pageLoop.eq_def]
    simp
  simp only [iteration, hcsum, hdes, hrand, hi, nextNbytes_fixed, Bool.true_and,
    beq_self_eq_true, Bool.not_true, Bool.false_eq_true, if_false, Bool.false_and,
    Bool.not_false, Bool.and_true, if_true]
  have e4096 : (4096 : Int).toNat = 4096 := rfl
  rw [e4096, hloop]
  simp only
  rw [Pwrite_single_call _ _ ret1 4096 _ fuel (by decide) hoff h1]
  simp only
  rw [Pwrite_single_call _ _ ret2 4096 _ fuel (by decide) hoff h2]
  simp only
  refine ⟨_, rfl, ?_, ?_, ?_, ?_⟩ <;> simp only

/-- A read iteration of mirror mode over one page, both `pread` calls transferring the
whole page: when the two devices differ in some byte of the page, the iteration leaves
through `bad` and prints the sector of the page. -/
theorem mirror_read_iteration (MD4 : List Nat → Digest) (ks : Nat → Nat) (o : Options)
    (size fuel i : Nat) (d : Draw) (ret1 ret2 : Nat → Int → Int) (r : Run)
    (hcsum : o.csum = false) (hrand : o.randsize = false)
    (hi : i % 2 = 0) (h1 : ret1 0 4096 = 4096) (h2 : ret2 0 4096 = 4096)
    (hne : ∃ k, k < 4096 ∧
      r.dev1 (nextOffset o.walk size r.offset d.normal d.random + k)
        ≠ r.dev2 (nextOffset o.walk size r.offset d.normal d.random + k)) :
    ∃ r1 rep, iteration MD4 ks o size (fuel + 1) i d ret1 ret2 r = Step.bad r1 rep ∧
      rep.sector = nextOffset o.walk size r.offset d.normal d.random / 512 := by
  have hoff := nextOffset_lt o.walk size r.offset d.normal d.random
  have hw : (o.destructive && (i % 2 == 1)) = false := by
    rw [hi]
    cases o.destructive <;> rfl
  have e4096 : (4096 : Int).toNat = 4096 := rfl
  have hm : ∀ s : State,
      s.buf1 = pread r.dev1 r.st.buf1 4096
        (nextOffset o.walk size r.offset d.normal d.random) →
      s.buf2 = pread r.dev2 r.st.buf2 4096
        (nextOffset o.walk size r.offset d.normal d.random) →
      memcmp (page s.buf1 0) (page s.buf2 0) ≠ 0 := by
    intro s hs1 hs2
    rw [memcmp_page_ne_zero_iff, hs1, hs2]
    obtain ⟨k, hk, hkne⟩ := hne
    refine ⟨k, hk, ?_⟩
    have hk1 : ((0 + k : Nat) : Int) < 4096 := by omega
    simp only [pread, hk1, if_true]
    simpa using hkne
  simp only [iteration, hw, hcsum, hrand, nextNbytes_fixed, Bool.not_false, Bool.and_true,
    Bool.false_eq_true, if_false, if_true, Bool.and_self]
  rw [Pread_single_call_eq _ _ ret1 4096 _ fuel (by decide) hoff h1]
  simp only
  rw [Pread_single_call_eq _ _ ret2 4096 _ fuel (by decide) hoff h2]
  simp only
  have hloop : ∀ s : State, memcmp (page s.buf1 0) (page s.buf2 0) ≠ 0 →
      pageLoop MD4 ks false false (nextOffset o.walk size r.offset d.normal d.random)
        4096 (fuel + 1) 0 s = Outcome.bad s 0 := by
    intro s h
    rw [pageLoop, if_pos (by decide), pageBody_mirror_read, if_pos h]
  obtain ⟨s0, hs0⟩ : ∃ s0 : State, s0 =
      { pages := r.st.pages
        buf1 := pread r.dev1 r.st.buf1 4096
          (nextOffset o.walk size r.offset d.normal d.random)
        buf2 := pread r.dev2 r.st.buf2 4096
          (nextOffset o.walk size r.offset d.normal d.random)
        writedata := r.st.writedata
        c := r.st.c } := ⟨_, rfl⟩
  have hm0 := hm s0 (by rw [hs0]) (by rw [hs0])
  rw [e4096, ← hs0, hloop s0 hm0]
  refine ⟨_, _, rfl, ?_⟩
  simp only [bad, Nat.add_zero, Nat.mod_eq_of_lt hoff, Nat.shiftRight_eq_div_pow]

/-- A read iteration of mirror mode over one page, both `pread` calls transferring the
whole page: when the two devices agree on the page, control returns to the head of the
loop with the page of each device in its buffer and the devices untouched. -/
theorem mirror_read_iteration_agree (MD4 : List Nat → Digest) (ks : Nat → Nat)
    (o : Options) (size fuel i : Nat) (d : Draw) (ret1 ret2 : Nat → Int → Int) (r : Run)
    (hcsum : o.csum = false) (hrand : o.randsize = false)
    (hi : i % 2 = 0) (h1 : ret1 0 4096 = 4096) (h2 : ret2 0 4096 = 4096)
    (heq : ∀ k, k < 4096 →
      r.dev1 (nextOffset o.walk size r.offset d.normal d.random + k)
        = r.dev2 (nextOffset o.walk size r.offset d.normal d.random + k)) :
    ∃ r1, iteration MD4 ks o size (fuel + 1) i d ret1 ret2 r = Step.next r1 ∧
      r1.dev1 = r.dev1 ∧ r1.dev2 = r.dev2 ∧
      r1.st.buf1 = pread r.dev1 r.st.buf1 4096
        (nextOffset o.walk size r.offset d.normal d.random) ∧
      r1.st.buf2 = pread r.dev2 r.st.buf2 4096
        (nextOffset o.walk size r.offset d.normal d.random) ∧
      r1.st.writedata = r.st.writedata ∧
      r1.offset = nextOffset o.walk size r.offset d.normal d.random := by
  have hoff := nextOffset_lt o.walk size r.offset d.normal d.random
  have hw : (o.destructive && (i % 2 == 1)) = false := by
    rw [hi]
    cases o.destructive <;> rfl
  have e4096 : (4096 : Int).toNat = 4096 := rfl
  have hm : ∀ s : State,
      s.buf1 = pread r.dev1 r.st.buf1 4096
        (nextOffset o.walk size r.offset d.normal d.random) →
      s.buf2 = pread r.dev2 r.st.buf2 4096
        (nextOffset o.walk size r.offset d.normal d.random) →
      memcmp (page s.buf1 0) (page s.buf2 0) = 0 := by
    intro s hs1 hs2
    rw [memcmp_eq_zero_iff _ _ (by rw [page_length, page_length]), page_eq_iff, hs1, hs2]
    intro k hk
    have hk1 : ((0 + k : Nat) : Int) < 4096 := by omega
    simp only [pread, hk1, if_true]
    simpa using heq k hk
  have hloop : ∀ s : State, memcmp (page s.buf1 0) (page s.buf2 0) = 0 →
      pageLoop MD4 ks false false (nextOffset o.walk size r.offset d.normal d.random)
        4096 (fuel + 1) 0 s
      = Outcome.ok { s with
          pages := Function.update s.pages
            (pageIndex (nextOffset o.walk size r.offset d.normal d.random) 0)
            (count false (s.pages
              (pageIndex (nextOffset o.walk size r.offset d.normal d.random) 0))) } := by
    intro s h
    rw [pageLoop, if_pos (by decide), pageBody_mirror_read, if_neg (not_not.mpr h)]
    simp only
    rw [pageLoop.eq_def]
    simp
  simp only [iteration, hw, hcsum, hrand, nextNbytes_fixed, Bool.not_false, Bool.and_true,
    Bool.false_eq_true, if_false, if_true, Bool.and_self]
  rw [Pread_single_call_eq _ _ ret1 4096 _ fuel (by decide) hoff h1]
  simp only
  rw [Pread_single_call_eq _ _ ret2 4096 _ fuel (by decide) hoff h2]
  simp only
  obtain ⟨s0, hs0⟩ : ∃ s0 : State, s0 =
      { pages := r.st.pages
        buf1 := pread r.dev1 r.st.buf1 4096
          (nextOffset o.walk size r.offset d.normal d.random)
        buf2 := pread r.dev2 r.st.buf2 4096
          (nextOffset o.walk size r.offset d.normal d.random)
        writedata := r.st.writedata
        c := r.st.c } := ⟨_, rfl⟩
  have hm0 := hm s0 (by rw [hs0]) (by rw [hs0])
  rw [e4096, ← hs0, hloop s0 hm0]
  refine ⟨_, rfl, ?_, ?_, ?_, ?_, ?_, ?_⟩ <;> simp only [hs0]

/-- C5 at a failing input. Mirror mode with destructive writes on two devices that both
hold zero bytes. Iteration 0 reads page 0 from both devices. Iteration 1 writes page 5:
the first device receives the transformed content, whose first byte is 238, the second the
bytes of `buf2`, which are those read in iteration 0, so that the devices differ at byte
20480. Iteration 2 reads
page 5 from both devices and leaves through `bad` at sector 40. -/
theorem mirrored_write_diverges :
    ∃ r0 r1, iteration sampleDigest keystream sampleMirror 1024 4096 0 ⟨0, 0, 0⟩
        (fun _ n => n) (fun _ n => n) sampleRun = Step.next r0 ∧
      iteration sampleDigest keystream sampleMirror 1024 4096 1 ⟨0, 0, 5⟩
        (fun _ n => n) (fun _ n => n) r0 = Step.next r1 ∧
      r1.dev1 20480 = 238 ∧ r1.dev2 20480 = 0 ∧
      ∃ r2 rep, iteration sampleDigest keystream sampleMirror 1024 4096 2 ⟨0, 0, 0⟩
          (fun _ n => n) (fun _ n => n) r1 = Step.bad r2 rep ∧ rep.sector = 40 := by
  have hwalk : sampleMirror.walk = false := rfl
  have hp0 : nextOffset false 1024 0 0 0 = 0 := by
    simp only [nextOffset, nextPage_uniform 1024 0 0 0 (by decide)]
    decide
  have hp1 : nextOffset false 1024 0 0 5 = 20480 := by
    simp only [nextOffset, nextPage_uniform 1024 0 0 5 (by decide)]
    decide
  have hp2 : nextOffset false 1024 20480 0 0 = 20480 := by
    simp only [nextOffset, nextPage_uniform 1024 20480 0 0 (by decide)]
    decide
  obtain ⟨r0, hr0, hd01, hd02, _, hb02, hw0, ho0⟩ := mirror_read_iteration_agree
    sampleDigest keystream sampleMirror 1024 4095 0 ⟨0, 0, 0⟩ (fun _ n => n)
    (fun _ n => n) sampleRun rfl rfl rfl rfl rfl (fun _ _ => rfl)
  have ho1 : sampleRun.offset = 0 := rfl
  simp only [hwalk] at hb02 ho0
  rw [ho1, hp0] at hb02 ho0
  obtain ⟨r1, hr1, hd1, hd2, _, ho⟩ := mirror_write_iteration sampleDigest keystream
    sampleMirror 1024 4095 1 ⟨0, 0, 5⟩ (fun _ n => n) (fun _ n => n) r0
    rfl rfl rfl rfl rfl rfl
  simp only [hwalk] at hd1 hd2 ho
  rw [ho0, hp1] at hd1 hd2 ho
  have hb1 : r1.dev1 20480 = 238 := by
    rw [hd1, hw0]
    simp [pwrite, RC4, zero, sampleState, sampleRun, keystream_zero]
  have hb2 : r1.dev2 20480 = 0 := by
    rw [hd2, hb02, hd02]
    simp [pwrite, pread, zero, sampleState, sampleRun]
  refine ⟨r0, r1, hr0, hr1, hb1, hb2, ?_⟩
  obtain ⟨r2, rep, hr2, hsec⟩ := mirror_read_iteration sampleDigest keystream
    sampleMirror 1024 4095 2 ⟨0, 0, 0⟩ (fun _ n => n) (fun _ n => n) r1
    rfl rfl rfl rfl rfl
    ⟨0, by decide, by
      simp only [hwalk, ho]
      rw [hp2, Nat.add_zero, hb1, hb2]
      decide⟩
  refine ⟨r2, rep, hr2, ?_⟩
  rw [hsec]
  simp only [hwalk, ho]
  rw [hp2]

/-! ## Ledger indexing on a small device -/

/-- A write iteration of checksum mode over one page, the `pwrite` call transferring the
whole page: the ledger entry `(offset + 0) / 4096` has its `writecount` incremented. -/
theorem csum_write_iteration (MD4 : List Nat → Digest) (ks : Nat → Nat) (o : Options)
    (size fuel i : Nat) (d : Draw) (ret1 ret2 : Nat → Int → Int) (r : Run)
    (hcsum : o.csum = true) (hdes : o.destructive = true) (hrand : o.randsize = false)
    (hi : i % 2 = 1) (h1 : ret1 0 4096 = 4096) :
    ∃ r1, iteration MD4 ks o size (fuel + 1) i d ret1 ret2 r = Step.next r1 ∧
      r1.offset = nextOffset o.walk size r.offset d.normal d.random ∧
      (r1.st.pages (pageIndex (nextOffset o.walk size r.offset d.normal d.random) 0)).writecount
        = wrapInt ((r.st.pages
            (pageIndex (nextOffset o.walk size r.offset d.normal d.random) 0)).writecount + 1) := by
  have hoff := nextOffset_lt o.walk size r.offset d.normal d.random
  have e4096 : (4096 : Int).toNat = 4096 := rfl
  have hloop : ∀ s : State, ∃ s1, pageLoop MD4 ks true true
      (nextOffset o.walk size r.offset d.normal d.random) 4096 (fuel + 1) 0 s
      = Outcome.ok s1 ∧
      (s1.pages (pageIndex (nextOffset o.walk size r.offset d.normal d.random) 0)).writecount
        = wrapInt ((s.pages
            (pageIndex (nextOffset o.walk size r.offset d.normal d.random) 0)).writecount + 1) := by
    intro s
    rw [pageLoop, if_pos (by decide), pageBody_write]
    simp only
    rw [pageLoop.eq_def]
    simp [count]
  simp only [iteration, hcsum, hdes, hrand, hi, nextNbytes_fixed, Bool.true_and,
    beq_self_eq_true, Bool.not_true, Bool.false_eq_true, if_false, Bool.false_and,
    Bool.not_false, Bool.and_true, if_true, Bool.and_false]
  obtain ⟨s0, hs0⟩ : ∃ s0 : State, s0 =
      { pages := r.st.pages, buf1 := r.st.buf1, buf2 := r.st.buf2,
        writedata := r.st.writedata, c := r.st.c } := ⟨_, rfl⟩
  obtain ⟨s1, hs1, hc1⟩ := hloop s0
  rw [e4096, ← hs0, hs1]
  simp only
  rw [Pwrite_single_call _ _ ret1 4096 _ fuel (by decide) hoff h1]
  refine ⟨_, rfl, rfl, ?_⟩
  simp only [hc1, hs0]

/-- C10 at a failing input. A device of 120 sectors (15 pages), checksum mode with
destructive writes and walk steps. The subtraction `120 / 8 - 16` wraps: the range size is
`2 ^ 64 - 1`, which is at least 1, and `calloc` is asked for `size + 16 = 15` entries. In
iteration 1, a write, `normal()` returns 1: the step of 20 pages stays below the range
size, and the page loop increments the `writecount` of entry 20. -/
theorem small_device_index_out_of_bounds :
    rangeSize true 120 0 = 18446744073709551615 ∧
    1 ≤ rangeSize true 120 0 ∧
    allocated (rangeSize true 120 0) = 15 ∧
    ∃ r1, iteration sampleDigest keystream sampleWalk (rangeSize true 120 0) 4096 1
        ⟨0, 1, 0⟩ (fun _ n => n) (fun _ n => n) sampleRun = Step.next r1 ∧
      r1.offset = 81920 ∧ pageIndex r1.offset 0 = 20 ∧
      (r1.st.pages 20).writecount = 1 := by
  have hs : rangeSize true 120 0 = 18446744073709551615 := by decide
  have e1 : fl (((0 : Nat) >>> 12 : Nat) : ℚ) = 0 := by simp [fl]
  have e2 : fl ((1 : ℚ) * 20) = ((20 : Int) : ℚ) := by
    have h := fl_intCast 20 (by decide)
    norm_num at h ⊢
    exact h
  have e3 : fl ((0 : ℚ) + ((20 : Int) : ℚ)) = ((20 : Int) : ℚ) := by
    rw [zero_add]
    exact fl_intCast 20 (by decide)
  have ho : nextOffset true 18446744073709551615 0 1 0 = 81920 := by
    simp only [nextOffset, nextPage, if_true, e1, e2, e3, toULong, truncate_intCast]
    decide
  rw [hs]
  refine ⟨rfl, by decide, by decide, ?_⟩
  obtain ⟨r1, hr1, ho1, hc1⟩ := csum_write_iteration sampleDigest keystream sampleWalk
    18446744073709551615 4095 1 ⟨0, 1, 0⟩ (fun _ n => n) (fun _ n => n) sampleRun
    rfl rfl rfl rfl rfl
  have hwalk : sampleWalk.walk = true := rfl
  have hoff : sampleRun.offset = 0 := rfl
  simp only [hwalk] at ho1 hc1
  rw [hoff, ho] at ho1 hc1
  have hidx : pageIndex 81920 0 = 20 := by decide
  rw [hidx] at hc1
  refine ⟨r1, hr1, ho1, by rw [ho1]; exact hidx, ?_⟩
  rw [hc1]
  rfl

end BcacheTest
